import Mathlib

/-!
# Sort.hpp: a shallow embedding

The header `src/include/Sort.hpp` defines one class template `Sort<Iterator, Comparator>`
whose constructor stores `m_Begin`/`m_End` and runs one of six in-place sorting
strategies over the iterator range.

Embedding conventions.

* The storage the iterators point into is a `List α`; an iterator is a position
  (`Nat`) in that storage.  The sorted range is `[begin, end_)`.
* Dereferencing a position outside the storage, or moving an iterator before the
  first position of the storage, is undefined behaviour in C++; here every
  operation returns `Except Fault _` and such a step yields the matching `Fault`.
* `while`/`for` loops and the recursive helpers are structural recursions on a
  step budget; running out of budget is the separate fault `Fault.fuel`.
* `std::move` of an element is modelled as a copy; `size_t` distances wrap
  modulo `2 ^ 64`.
-/

namespace SortHpp

/-- The enumeration `SortAlgorithm` (Sort.hpp, lines 47-55). -/
inductive SortAlgorithm
  | Default
  | BubbleSort
  | SelectionSort
  | InsertionSort
  | MergeSort
  | QuickSort
  deriving DecidableEq, Repr

/-- The ways an execution can leave defined behaviour. -/
inductive Fault
  /-- A position outside the storage was dereferenced. -/
  | outOfRange (pos : Nat)
  /-- An iterator was moved before the first position of the storage. -/
  | beforeStorage
  /-- The step budget of the model was used up. -/
  | fuel
  deriving DecidableEq, Repr

/-- The comparator is a strict weak ordering (spec glossary): irreflexive, transitive,
and incomparability (neither `a < b` nor `b < a`) is transitive. -/
structure StrictWeakOrdering {α : Type} (comparator : α → α → Bool) : Prop where
  irrefl : ∀ a, comparator a a = false
  trans : ∀ a b c, comparator a b = true → comparator b c = true → comparator a c = true
  incomp_trans : ∀ a b c, comparator a b = false → comparator b a = false →
    comparator b c = false → comparator c b = false →
    comparator a c = false ∧ comparator c a = false

/-- The test driver's comparator `std::greater<size_t>` (Test.cpp, line 329). -/
def greater (a b : Nat) : Bool := decide (a > b)

/-- A comparator on tagged values that only looks at the key (first component). -/
def greaterKey (a b : Nat × Nat) : Bool := decide (a.1 > b.1)

variable {α : Type}

/-- Reading `*it`. -/
def deref (a : List α) (it : Nat) : Except Fault α :=
  match a[it]? with
  | some v => .ok v
  | none => .error (.outOfRange it)

/-- Writing `*it = v`. -/
def assign (a : List α) (it : Nat) (v : α) : Except Fault (List α) :=
  if it < a.length then .ok (a.set it v) else .error (.outOfRange it)

/-- The call `std::iter_swap(i, j)`. -/
def iter_swap (a : List α) (i j : Nat) : Except Fault (List α) :=
  match deref a i with
  | .error e => .error e
  | .ok x =>
    match deref a j with
    | .error e => .error e
    | .ok y =>
      match assign a i y with
      | .error e => .error e
      | .ok a1 => assign a1 j x

/-- Moving an iterator back by `k` positions: `std::advance(it, -1)`, `std::prev(it, k)`. -/
def retreat (it : Nat) (k : Nat := 1) : Except Fault Nat :=
  if it < k then .error .beforeStorage else .ok (it - k)

/-- The value of `std::distance(a, b)` stored in a `size_t`. -/
def distance (a b : Nat) : Nat :=
  if a ≤ b then b - a else 2 ^ 64 - (a - b)

/-! ## BubbleSort (Sort.hpp, lines 82-100) -/

/-- The inner `for` loop of `BubbleSort` (lines 90-97); returns the storage and the
flag `sorted`. -/
def BubbleSort.pass (comparator : α → α → Bool) (end_ : Nat) :
    Nat → Nat → Nat → List α → Bool → Except Fault (List α × Bool)
  | 0, _, _, _, _ => .error .fuel
  | fuel + 1, current, next, a, sorted =>
    if next = end_ then .ok (a, sorted)
    else
      match deref a current with
      | .error e => .error e
      | .ok x =>
        match deref a next with
        | .error e => .error e
        | .ok y =>
          if comparator x y then
            match iter_swap a current next with
            | .error e => .error e
            | .ok a1 => BubbleSort.pass comparator end_ fuel (current + 1) (next + 1) a1 false
          else BubbleSort.pass comparator end_ fuel (current + 1) (next + 1) a sorted

/-- The `while (!sorted)` loop of `BubbleSort` (lines 85-99). -/
def BubbleSort.loop (comparator : α → α → Bool) (begin : Nat) :
    Nat → Nat → List α → Except Fault (List α)
  | 0, _, _ => .error .fuel
  | fuel + 1, end_, a =>
    match BubbleSort.pass comparator end_ (a.length + 1) begin (begin + 1) a true with
    | .error e => .error e
    | .ok (a1, sorted) =>
      match retreat end_ with
      | .error e => .error e
      | .ok end1 => if sorted then .ok a1 else BubbleSort.loop comparator begin fuel end1 a1

/-- `Sort::BubbleSort(begin, end, comparator)`. -/
def BubbleSort (comparator : α → α → Bool) (begin end_ : Nat) (a : List α) :
    Except Fault (List α) :=
  BubbleSort.loop comparator begin (a.length + 1) end_ a

/-! ## SelectionSort (Sort.hpp, lines 113-132) -/

/-- The inner `for` loop of `SelectionSort` (lines 122-129); returns `min` and `found`. -/
def SelectionSort.scan (comparator : α → α → Bool) (end_ : Nat) (a : List α) :
    Nat → Nat → Nat → Bool → Except Fault (Nat × Bool)
  | 0, _, _, _ => .error .fuel
  | fuel + 1, value, min, found =>
    if value = end_ then .ok (min, found)
    else
      match deref a min with
      | .error e => .error e
      | .ok m =>
        match deref a value with
        | .error e => .error e
        | .ok v =>
          if comparator m v then SelectionSort.scan comparator end_ a fuel (value + 1) value true
          else SelectionSort.scan comparator end_ a fuel (value + 1) min found

/-- The outer `for` loop of `SelectionSort` (lines 117-131). -/
def SelectionSort.loop (comparator : α → α → Bool) (end_ last : Nat) :
    Nat → Nat → List α → Except Fault (List α)
  | 0, _, _ => .error .fuel
  | fuel + 1, pivot, a =>
    if pivot = last then .ok a
    else
      match SelectionSort.scan comparator end_ a (a.length + 1) (pivot + 1) pivot false with
      | .error e => .error e
      | .ok (min, found) =>
        if found then
          match iter_swap a pivot min with
          | .error e => .error e
          | .ok a1 => SelectionSort.loop comparator end_ last fuel (pivot + 1) a1
        else SelectionSort.loop comparator end_ last fuel (pivot + 1) a

/-- `Sort::SelectionSort(begin, end, comparator)`. -/
def SelectionSort (comparator : α → α → Bool) (begin end_ : Nat) (a : List α) :
    Except Fault (List α) :=
  match retreat end_ with
  | .error e => .error e
  | .ok last => SelectionSort.loop comparator end_ last (a.length + 1) begin a

/-! ## InsertionSort (Sort.hpp, lines 145-164) -/

/-- The `do ... while (prev != begin)` loop of `InsertionSort` (lines 154-160); returns
the storage and the final `current`. -/
def InsertionSort.shift (comparator : α → α → Bool) (begin : Nat) (pivot_value : α) :
    Nat → Nat → Nat → List α → Except Fault (List α × Nat)
  | 0, _, _, _ => .error .fuel
  | fuel + 1, current, prev, a =>
    match retreat prev with
    | .error e => .error e
    | .ok prev1 =>
      match deref a prev1 with
      | .error e => .error e
      | .ok x =>
        if !comparator x pivot_value then .ok (a, current)
        else
          match assign a current x with
          | .error e => .error e
          | .ok a1 =>
            match retreat current with
            | .error e => .error e
            | .ok current1 =>
              if prev1 ≠ begin then
                InsertionSort.shift comparator begin pivot_value fuel current1 prev1 a1
              else .ok (a1, current1)

/-- The outer `for` loop of `InsertionSort` (lines 148-163). -/
def InsertionSort.loop (comparator : α → α → Bool) (begin end_ : Nat) :
    Nat → Nat → List α → Except Fault (List α)
  | 0, _, _ => .error .fuel
  | fuel + 1, pivot, a =>
    if pivot = end_ then .ok a
    else
      match deref a pivot with
      | .error e => .error e
      | .ok pivot_value =>
        match InsertionSort.shift comparator begin pivot_value (a.length + 1) pivot pivot a with
        | .error e => .error e
        | .ok (a1, current) =>
          match assign a1 current pivot_value with
          | .error e => .error e
          | .ok a2 => InsertionSort.loop comparator begin end_ fuel (pivot + 1) a2

/-- `Sort::InsertionSort(begin, end, comparator)`. -/
def InsertionSort (comparator : α → α → Bool) (begin end_ : Nat) (a : List α) :
    Except Fault (List α) :=
  InsertionSort.loop comparator begin end_ (a.length + 1) (begin + 1) a

/-! ## MergeSort (Sort.hpp, lines 180-184 and 233-300) -/

/-- The two copy loops of `_MergeSubData` (lines 259-262 and 265-268): `count` elements
starting at `aux` are pushed onto the back of a temporary vector. -/
def _MergeSubData.copy (a : List α) : Nat → Nat → List α → Except Fault (List α)
  | 0, _, buffer => .ok buffer
  | count + 1, aux, buffer =>
    match deref a aux with
    | .error e => .error e
    | .ok x => _MergeSubData.copy a count (aux + 1) (buffer ++ [x])

/-- The interleaving loop of `_MergeSubData` (lines 273-286).  A temporary vector together
with its iterator is represented by the elements from the iterator to the end of the
vector.  Returns the storage, `aux` and what is left of the two vectors. -/
def _MergeSubData.merge (comparator : α → α → Bool) :
    Nat → List α → List α → Nat → List α → Except Fault (List α × Nat × List α × List α)
  | _, [], rs, aux, a => .ok (a, aux, [], rs)
  | _, l :: ls, [], aux, a => .ok (a, aux, l :: ls, [])
  | 0, _ :: _, _ :: _, _, _ => .error .fuel
  | fuel + 1, l :: ls, r :: rs, aux, a =>
    if comparator r l then
      match assign a aux l with
      | .error e => .error e
      | .ok a1 => _MergeSubData.merge comparator fuel ls (r :: rs) (aux + 1) a1
    else
      match assign a aux r with
      | .error e => .error e
      | .ok a1 => _MergeSubData.merge comparator fuel (l :: ls) rs (aux + 1) a1

/-- The two trailing loops of `_MergeSubData` (lines 288-293 and 294-299): what is left of
a temporary vector is written back from `aux` on. -/
def _MergeSubData.drain : List α → Nat → List α → Except Fault (List α × Nat)
  | [], aux, a => .ok (a, aux)
  | x :: xs, aux, a =>
    match assign a aux x with
    | .error e => .error e
    | .ok a1 => _MergeSubData.drain xs (aux + 1) a1

/-- `Sort::_MergeSubData(left, middle, right, comparator)`. -/
def _MergeSubData (comparator : α → α → Bool) (left middle right : Nat) (a : List α) :
    Except Fault (List α) :=
  let vector_left_size := distance left middle + 1
  let vector_right_size := distance middle right
  match _MergeSubData.copy a vector_left_size left [] with
  | .error e => .error e
  | .ok left_vector =>
    match _MergeSubData.copy a vector_right_size (middle + 1) [] with
    | .error e => .error e
    | .ok right_vector =>
      match _MergeSubData.merge comparator (left_vector.length + right_vector.length)
          left_vector right_vector left a with
      | .error e => .error e
      | .ok (a1, aux, ls, rs) =>
        match _MergeSubData.drain ls aux a1 with
        | .error e => .error e
        | .ok (a2, aux2) =>
          match _MergeSubData.drain rs aux2 a2 with
          | .error e => .error e
          | .ok (a3, _) => .ok a3

/-- `Sort::_MergeSortImp(left, right, comparator)`; `left` and `right` are both inclusive. -/
def _MergeSortImp (comparator : α → α → Bool) (m_Begin : Nat) :
    Nat → Nat → Nat → List α → Except Fault (List α)
  | 0, _, _, _ => .error .fuel
  | fuel + 1, left, right, a =>
    let left_distance := distance m_Begin left
    let right_distance := distance m_Begin right
    if left_distance ≥ right_distance then .ok a
    else
      let middle_distance := (left_distance + right_distance - 1) / 2
      let middle := m_Begin + middle_distance
      match _MergeSortImp comparator m_Begin fuel left middle a with
      | .error e => .error e
      | .ok a1 =>
        match _MergeSortImp comparator m_Begin fuel (middle + 1) right a1 with
        | .error e => .error e
        | .ok a2 => _MergeSubData comparator left middle right a2

/-- `Sort::MergeSort(begin, end, comparator)`: `end` is moved back by one before the
recursion starts, so the recursion works on the inclusive range. -/
def MergeSort (comparator : α → α → Bool) (m_Begin begin end_ : Nat) (a : List α) :
    Except Fault (List α) :=
  match retreat end_ with
  | .error e => .error e
  | .ok end1 => _MergeSortImp comparator m_Begin (a.length + 1) begin end1 a

/-! ## QuickSort (Sort.hpp, lines 200-203 and 303-375) -/

/-- The nested comparisons of `_QuickSortPartition` (lines 324-351) that choose the
iterator `pivot_value` among the three candidates.  No element is written in between, so
each candidate is read once. -/
def _QuickSortPartition.choose (comparator : α → α → Bool) (a : List α)
    (left_quarter pivot_value right_quarter : Nat) : Except Fault Nat :=
  match deref a left_quarter with
  | .error e => .error e
  | .ok lq =>
    match deref a pivot_value with
    | .error e => .error e
    | .ok pv =>
      match deref a right_quarter with
      | .error e => .error e
      | .ok rq =>
        if comparator lq pv then
          if comparator rq pv then
            if comparator lq rq then .ok right_quarter else .ok left_quarter
          else .ok pivot_value
        else
          if comparator pv rq then
            if comparator rq lq then .ok right_quarter else .ok left_quarter
          else .ok pivot_value

/-- The first `for` loop of `_QuickSortPartition` (lines 353-360); returns the storage and
`pivot_index`. -/
def _QuickSortPartition.scanLeft (comparator : α → α → Bool) (pivot_value : Nat) :
    Nat → Nat → Nat → List α → Except Fault (List α × Nat)
  | 0, _, _, _ => .error .fuel
  | fuel + 1, left, pivot_index, a =>
    if left = pivot_value then .ok (a, pivot_index)
    else
      match deref a pivot_value with
      | .error e => .error e
      | .ok pv =>
        match deref a left with
        | .error e => .error e
        | .ok x =>
          if comparator pv x then
            match iter_swap a left pivot_index with
            | .error e => .error e
            | .ok a1 =>
              _QuickSortPartition.scanLeft comparator pivot_value fuel (left + 1)
                (pivot_index + 1) a1
          else _QuickSortPartition.scanLeft comparator pivot_value fuel (left + 1) pivot_index a

/-- The second `for` loop of `_QuickSortPartition` (lines 364-371); returns the storage
and `pivot_index`. -/
def _QuickSortPartition.scanRight (comparator : α → α → Bool) (pivot_value : Nat) :
    Nat → Nat → Nat → List α → Except Fault (List α × Nat)
  | 0, _, _, _ => .error .fuel
  | fuel + 1, right, pivot_index, a =>
    if right = pivot_value then .ok (a, pivot_index)
    else
      match deref a right with
      | .error e => .error e
      | .ok x =>
        match deref a pivot_value with
        | .error e => .error e
        | .ok pv =>
          if comparator x pv then
            match iter_swap a right pivot_index with
            | .error e => .error e
            | .ok a1 =>
              match retreat pivot_index with
              | .error e => .error e
              | .ok pivot_index1 =>
                match retreat right with
                | .error e => .error e
                | .ok right1 =>
                  _QuickSortPartition.scanRight comparator pivot_value fuel right1
                    pivot_index1 a1
          else
            match retreat right with
            | .error e => .error e
            | .ok right1 =>
              _QuickSortPartition.scanRight comparator pivot_value fuel right1 pivot_index a

/-- `Sort::_QuickSortPartition(left, right, comparator)`; returns the storage and the
returned iterator. -/
def _QuickSortPartition (comparator : α → α → Bool) (m_Begin left right : Nat) (a : List α) :
    Except Fault (List α × Nat) :=
  let half := distance left right / 2
  let pivot_value := m_Begin + half
  let quarter := half / 2
  let left_quarter := left + quarter
  match retreat right quarter with
  | .error e => .error e
  | .ok right_quarter =>
    match _QuickSortPartition.choose comparator a left_quarter pivot_value right_quarter with
    | .error e => .error e
    | .ok pivot_value1 =>
      match _QuickSortPartition.scanLeft comparator pivot_value1 (a.length + 1) left left a with
      | .error e => .error e
      | .ok (a1, pivot_index) =>
        match iter_swap a1 pivot_index pivot_value1 with
        | .error e => .error e
        | .ok a2 =>
          match _QuickSortPartition.scanRight comparator pivot_index (a.length + 1)
              right right a2 with
          | .error e => .error e
          | .ok (a3, pivot_index2) =>
            match iter_swap a3 pivot_index2 pivot_index with
            | .error e => .error e
            | .ok a4 => .ok (a4, pivot_index2)

/-- `Sort::_QuickSortImp(left, right, comparator)`. -/
def _QuickSortImp (comparator : α → α → Bool) (m_Begin m_End : Nat) :
    Nat → Nat → Nat → List α → Except Fault (List α)
  | 0, _, _, _ => .error .fuel
  | fuel + 1, left, right, a =>
    let left_distance := distance m_Begin left
    let right_distance := distance m_Begin right
    if left_distance ≥ right_distance then .ok a
    else
      match _QuickSortPartition comparator m_Begin left right a with
      | .error e => .error e
      | .ok (a1, pivot_iterator) =>
        match (if pivot_iterator ≠ m_Begin then
            match retreat pivot_iterator with
            | .error e => .error e
            | .ok before => _QuickSortImp comparator m_Begin m_End fuel left before a1
          else .ok a1 : Except Fault (List α)) with
        | .error e => .error e
        | .ok a2 =>
          match retreat m_End with
          | .error e => .error e
          | .ok last =>
            if pivot_iterator ≠ last then
              _QuickSortImp comparator m_Begin m_End fuel (pivot_iterator + 1) right a2
            else .ok a2

/-- `Sort::QuickSort(begin, end, comparator)`: `end` is handed on as it is. -/
def QuickSort (comparator : α → α → Bool) (m_Begin m_End begin end_ : Nat) (a : List α) :
    Except Fault (List α) :=
  _QuickSortImp comparator m_Begin m_End (a.length + 2) begin end_ a

/-! ## DefaultSort (Sort.hpp, lines 217-228 and 378-392) -/

/-- `Sort::_DefaultSortImp(left, right, comparator)`. -/
def _DefaultSortImp (comparator : α → α → Bool) (m_Begin m_End : Nat) :
    Nat → Nat → Nat → List α → Except Fault (List α)
  | 0, _, _, _ => .error .fuel
  | fuel + 1, left, right, a =>
    let left_distance := distance m_Begin left
    let right_distance := distance m_Begin right
    if left_distance ≥ right_distance then .ok a
    else if right_distance - left_distance ≤ 200 then
      InsertionSort comparator left (right + 1) a
    else
      match _QuickSortPartition comparator m_Begin left right a with
      | .error e => .error e
      | .ok (a1, pivot_iterator) =>
        match (if pivot_iterator ≠ m_Begin then
            match retreat pivot_iterator with
            | .error e => .error e
            | .ok before => _DefaultSortImp comparator m_Begin m_End fuel left before a1
          else .ok a1 : Except Fault (List α)) with
        | .error e => .error e
        | .ok a2 =>
          match retreat m_End with
          | .error e => .error e
          | .ok last =>
            if pivot_iterator ≠ last then
              _DefaultSortImp comparator m_Begin m_End fuel (pivot_iterator + 1) right a2
            else .ok a2

/-- `Sort::DefaultSort(begin, end, comparator)`. -/
def DefaultSort (comparator : α → α → Bool) (m_Begin m_End begin end_ : Nat) (a : List α) :
    Except Fault (List α) :=
  let size := distance begin end_
  if size ≤ 200 then InsertionSort comparator begin end_ a
  else _DefaultSortImp comparator m_Begin m_End (a.length + 2) begin end_ a

/-! ## The dispatcher and the constructor (Sort.hpp, lines 62-67 and 394-417) -/

/-- `Sort::Run(comparator, algorithm)` on an object with members `m_Begin`, `m_End`. -/
def Run (m_Begin m_End : Nat) (comparator : α → α → Bool) (algorithm : SortAlgorithm)
    (a : List α) : Except Fault (List α) :=
  match algorithm with
  | .Default => DefaultSort comparator m_Begin m_End m_Begin m_End a
  | .BubbleSort => BubbleSort comparator m_Begin m_End a
  | .SelectionSort => SelectionSort comparator m_Begin m_End a
  | .InsertionSort => InsertionSort comparator m_Begin m_End a
  | .MergeSort => MergeSort comparator m_Begin m_Begin m_End a
  | .QuickSort => QuickSort comparator m_Begin m_End m_Begin m_End a

/-- The constructor `Sort(begin, end, comparator, algorithm)` applied to iterators into
the storage `a`: the result is the storage after the call.  (`Sort` itself is a reserved
word of Lean.) -/
def sortRange (a : List α) (begin end_ : Nat) (comparator : α → α → Bool)
    (algorithm : SortAlgorithm := SortAlgorithm.Default) : Except Fault (List α) :=
  Run begin end_ comparator algorithm a

/-- The call `Sort(v.begin(), v.end(), comparator, algorithm)` of the test driver
(Test.cpp, line 329) on a vector with contents `v`. -/
def sortVector (comparator : α → α → Bool) (algorithm : SortAlgorithm) (v : List α) :
    Except Fault (List α) :=
  sortRange v 0 v.length comparator algorithm

/-- Every adjacent pair `(x, y)` satisfies `comparator x y = false`. -/
def Ordered (comparator : α → α → Bool) (l : List α) : Prop :=
  List.Chain' (fun x y => comparator x y = false) l

/-! ## Notions used by the claims on stability and on sorted input -/

/-- The two values are equal-ranked: neither has to follow the other. -/
def equalRanked (comparator : α → α → Bool) (a b : α) : Bool :=
  !comparator a b && !comparator b a

/-! ## BubbleSort and SelectionSort with a count of the swaps

The same loops as above, with one more variable that counts the calls of
`std::iter_swap`. -/

/-- `BubbleSort.pass` with the number of swaps made so far. -/
def BubbleSort.passCount (comparator : α → α → Bool) (end_ : Nat) :
    Nat → Nat → Nat → List α → Bool → Nat → Except Fault (List α × Bool × Nat)
  | 0, _, _, _, _, _ => .error .fuel
  | fuel + 1, current, next, a, sorted, swaps =>
    if next = end_ then .ok (a, sorted, swaps)
    else
      match deref a current with
      | .error e => .error e
      | .ok x =>
        match deref a next with
        | .error e => .error e
        | .ok y =>
          if comparator x y then
            match iter_swap a current next with
            | .error e => .error e
            | .ok a1 =>
              BubbleSort.passCount comparator end_ fuel (current + 1) (next + 1) a1 false
                (swaps + 1)
          else BubbleSort.passCount comparator end_ fuel (current + 1) (next + 1) a sorted swaps

/-- `BubbleSort.loop` with the number of swaps made so far. -/
def BubbleSort.loopCount (comparator : α → α → Bool) (begin : Nat) :
    Nat → Nat → List α → Nat → Except Fault (List α × Nat)
  | 0, _, _, _ => .error .fuel
  | fuel + 1, end_, a, swaps =>
    match BubbleSort.passCount comparator end_ (a.length + 1) begin (begin + 1) a true swaps with
    | .error e => .error e
    | .ok (a1, sorted, swaps1) =>
      match retreat end_ with
      | .error e => .error e
      | .ok end1 =>
        if sorted then .ok (a1, swaps1)
        else BubbleSort.loopCount comparator begin fuel end1 a1 swaps1

/-- `Sort::BubbleSort(begin, end, comparator)` with the number of swaps it makes. -/
def BubbleSortCount (comparator : α → α → Bool) (begin end_ : Nat) (a : List α) :
    Except Fault (List α × Nat) :=
  BubbleSort.loopCount comparator begin (a.length + 1) end_ a 0

/-- `SelectionSort.loop` with the number of swaps made so far. -/
def SelectionSort.loopCount (comparator : α → α → Bool) (end_ last : Nat) :
    Nat → Nat → List α → Nat → Except Fault (List α × Nat)
  | 0, _, _, _ => .error .fuel
  | fuel + 1, pivot, a, swaps =>
    if pivot = last then .ok (a, swaps)
    else
      match SelectionSort.scan comparator end_ a (a.length + 1) (pivot + 1) pivot false with
      | .error e => .error e
      | .ok (min, found) =>
        if found then
          match iter_swap a pivot min with
          | .error e => .error e
          | .ok a1 => SelectionSort.loopCount comparator end_ last fuel (pivot + 1) a1 (swaps + 1)
        else SelectionSort.loopCount comparator end_ last fuel (pivot + 1) a swaps

/-- `Sort::SelectionSort(begin, end, comparator)` with the number of swaps it makes. -/
def SelectionSortCount (comparator : α → α → Bool) (begin end_ : Nat) (a : List α) :
    Except Fault (List α × Nat) :=
  match retreat end_ with
  | .error e => .error e
  | .ok last => SelectionSort.loopCount comparator end_ last (a.length + 1) begin a 0

/-! # Lemmas

## Strict weak orderings -/

theorem StrictWeakOrdering.asymm {comparator : α → α → Bool} (h : StrictWeakOrdering comparator)
    {a b : α} (hab : comparator a b = true) : comparator b a = false := by
  by_contra hba
  have h1 := h.trans a b a hab (by simpa using hba)
  rw [h.irrefl a] at h1
  exact Bool.false_ne_true h1

/-- Negative transitivity: "may precede" is transitive. -/
theorem StrictWeakOrdering.le_trans {comparator : α → α → Bool}
    (h : StrictWeakOrdering comparator) {a b c : α}
    (hab : comparator a b = false) (hbc : comparator b c = false) : comparator a c = false := by
  by_contra hac
  have hac1 : comparator a c = true := by simpa using hac
  have hba : comparator b a = false := by
    by_contra hba
    have := h.trans b a c (by simpa using hba) hac1
    rw [hbc] at this
    exact Bool.false_ne_true this
  have hcb : comparator c b = false := by
    by_contra hcb
    have := h.trans a c b hac1 (by simpa using hcb)
    rw [hab] at this
    exact Bool.false_ne_true this
  have := (h.incomp_trans a b c hab hba hbc hcb).1
  exact hac this

theorem greater_strictWeakOrdering : StrictWeakOrdering greater := by
  constructor
  · intro a; simp [greater]
  · intro a b c; simp only [greater, decide_eq_true_eq]; omega
  · intro a b c; simp only [greater, decide_eq_false_iff_not]; omega

theorem greaterKey_strictWeakOrdering : StrictWeakOrdering greaterKey := by
  constructor
  · intro a; simp [greaterKey]
  · intro a b c; simp only [greaterKey, decide_eq_true_eq]; omega
  · intro a b c; simp only [greaterKey, decide_eq_false_iff_not]; omega

/-! ## Reading, writing and swapping -/

theorem deref_of_getElem? {a : List α} {i : Nat} {x : α} (h : a[i]? = some x) :
    deref a i = .ok x := by
  simp [deref, h]

theorem deref_of_le {a : List α} {i : Nat} (h : a.length ≤ i) :
    deref a i = .error (.outOfRange i) := by
  simp [deref, List.getElem?_eq_none h]

theorem assign_of_lt {a : List α} {i : Nat} (v : α) (h : i < a.length) :
    assign a i v = .ok (a.set i v) := by
  simp [assign, h]

theorem iter_swap_of_getElem? {a : List α} {i j : Nat} {x y : α}
    (hi : a[i]? = some x) (hj : a[j]? = some y) :
    iter_swap a i j = .ok ((a.set i y).set j x) := by
  have hi1 : i < a.length := by
    rcases Nat.lt_or_ge i a.length with h | h
    · exact h
    · rw [List.getElem?_eq_none h] at hi; cases hi
  have hj1 : j < a.length := by
    rcases Nat.lt_or_ge j a.length with h | h
    · exact h
    · rw [List.getElem?_eq_none h] at hj; cases hj
  simp [iter_swap, deref, hi, hj, assign, hi1, hj1]

theorem lt_length_of_getElem? {a : List α} {i : Nat} {x : α} (h : a[i]? = some x) :
    i < a.length := by
  rcases Nat.lt_or_ge i a.length with h1 | h1
  · exact h1
  · rw [List.getElem?_eq_none h1] at h; cases h

theorem exists_getElem? {a : List α} {i : Nat} (h : i < a.length) : ∃ x, a[i]? = some x :=
  ⟨a[i], List.getElem?_eq_getElem h⟩

/-- Overwriting one position with `y` when the head of the list moves in. -/
theorem perm_cons_set {a : List α} {j : Nat} {y : α} (h : α) (hj : a[j]? = some y) :
    List.Perm (y :: a.set j h) (h :: a) := by
  induction a generalizing j with
  | nil => simp at hj
  | cons c t ih =>
    cases j with
    | zero =>
      simp at hj
      subst hj
      simpa using List.Perm.swap h c t
    | succ j =>
      simp at hj
      simp only [List.set_cons_succ]
      exact ((List.Perm.swap c y _).trans ((ih hj).cons c)).trans (List.Perm.swap h c t)

/-- Exchanging the contents of two positions permutes the list. -/
theorem perm_set_set {a : List α} {i j : Nat} {x y : α}
    (hi : a[i]? = some x) (hj : a[j]? = some y) :
    List.Perm ((a.set i y).set j x) a := by
  induction a generalizing i j with
  | nil => simp at hi
  | cons c t ih =>
    cases i with
    | zero =>
      simp at hi
      subst hi
      cases j with
      | zero => simp at hj; subst hj; simp
      | succ j =>
        simp at hj
        simpa using perm_cons_set c hj
    | succ i =>
      simp at hi
      cases j with
      | zero =>
        simp at hj
        subst hj
        simpa using perm_cons_set c hi
      | succ j =>
        simp at hj
        simpa using ih hi hj

theorem getElem?_set_set {a : List α} {i j : Nat} {x y : α}
    (hi : a[i]? = some x) (hj : a[j]? = some y) (k : Nat) :
    ((a.set i y).set j x)[k]? = if k = j then some x else if k = i then some y else a[k]? := by
  have hi1 := lt_length_of_getElem? hi
  have hj1 := lt_length_of_getElem? hj
  simp only [List.getElem?_set, List.length_set]
  by_cases h1 : j = k
  · subst h1; simp [hj1]
  · by_cases h2 : i = k
    · subst h2; simp [h1, hi1, Ne.symm h1]
    · simp [h1, h2, Ne.symm h1, Ne.symm h2]

/-! ## BubbleSort: one pass -/

/-- One pass of `BubbleSort` over `[c, e)`: it completes, permutes the storage, touches
only `[c, e)`, reports `sorted` exactly when nothing was swapped, and under a strict weak
ordering leaves at position `e - 1` an element that no element of `[c, e)` has to follow. -/
theorem BubbleSort_pass_spec (comparator : α → α → Bool) (e : Nat) :
    ∀ (fuel c : Nat) (a : List α) (sorted : Bool), c + 1 ≤ e → e ≤ a.length → e - c ≤ fuel →
      ∃ a' s', BubbleSort.pass comparator e fuel c (c + 1) a sorted = .ok (a', s') ∧
        a'.length = a.length ∧ List.Perm a' a ∧
        (∀ i, i < c ∨ e ≤ i → a'[i]? = a[i]?) ∧
        (∀ i, c ≤ i → i < e → ∃ k, c ≤ k ∧ k < e ∧ a'[i]? = a[k]?) ∧
        (c + 1 = e → s' = sorted) ∧
        (s' = true → sorted = true ∧ a' = a ∧
          ∀ i x y, c ≤ i → i + 1 < e → a[i]? = some x → a[i + 1]? = some y →
            comparator x y = false) ∧
        (StrictWeakOrdering comparator → ∀ m, a'[e - 1]? = some m →
          (∀ i x, c ≤ i → i < e → a'[i]? = some x → comparator x m = false) ∧
          (∀ x, a[c]? = some x → comparator x m = false)) := by
  intro fuel
  induction fuel with
  | zero => intro c a sorted h1 h2 h3; omega
  | succ fuel ih =>
    intro c a sorted h1 h2 h3
    by_cases hce : c + 1 = e
    · refine ⟨a, sorted, by simp [BubbleSort.pass, hce], rfl, List.Perm.refl _, fun _ _ => rfl,
        fun i hi1 hi2 => ⟨i, hi1, hi2, rfl⟩, fun _ => rfl, ?_, ?_⟩
      · intro hs
        refine ⟨hs, rfl, ?_⟩
        intro i x y hi1 hi2; omega
      · intro hswo m hm
        have hc : e - 1 = c := by omega
        rw [hc] at hm
        constructor
        · intro i x hi1 hi2 hx
          have : i = c := by omega
          subst this
          rw [hm] at hx; cases hx
          exact hswo.irrefl _
        · intro x hx
          rw [hm] at hx; cases hx
          exact hswo.irrefl _
    · obtain ⟨x, hx⟩ := exists_getElem? (show c < a.length by omega)
      obtain ⟨y, hy⟩ := exists_getElem? (show c + 1 < a.length by omega)
      cases hxy : comparator x y with
      | true =>
        have hsw := iter_swap_of_getElem? hx hy
        have hget := getElem?_set_set hx hy
        obtain ⟨a', s', hrun, hlen, hperm, hF, hM, _, hS, hO⟩ :=
          ih (c + 1) ((a.set c y).set (c + 1) x) false (by omega) (by simp; omega) (by omega)
        refine ⟨a', s', ?_, ?_, ?_, ?_, ?_, ?_, ?_, ?_⟩
        · simp [BubbleSort.pass, hce, deref_of_getElem? hx, deref_of_getElem? hy, hxy, hsw, hrun]
        · simpa using hlen
        · exact hperm.trans (perm_set_set hx hy)
        · intro i hi
          rw [hF i (by omega), hget]
          have h1 : i ≠ c + 1 := by omega
          have h2 : i ≠ c := by omega
          simp [h1, h2]
        · intro i hi1 hi2
          by_cases hic : i = c
          · subst hic
            refine ⟨i + 1, by omega, by omega, ?_⟩
            rw [hF i (by omega), hget, hy]
            simp
          · obtain ⟨k, hk1, hk2, hk⟩ := hM i (by omega) hi2
            by_cases hkc : k = c + 1
            · subst hkc
              refine ⟨c, by omega, by omega, ?_⟩
              rw [hk, hget, hx]; simp
            · refine ⟨k, by omega, hk2, ?_⟩
              rw [hk, hget]
              have : k ≠ c := by omega
              simp [hkc, this]
        · intro h; exact absurd h hce
        · intro hs
          have := (hS hs).1
          cases this
        · intro hswo m hm
          obtain ⟨hO1, hO2⟩ := hO hswo m hm
          have hxm : comparator x m = false := hO2 x (by rw [hget]; simp)
          refine ⟨?_, ?_⟩
          · intro i z hi1 hi2 hz
            by_cases hic : i = c
            · subst hic
              rw [hF i (by omega), hget] at hz
              simp at hz
              subst hz
              exact hswo.le_trans (hswo.asymm hxy) hxm
            · exact hO1 i z (by omega) hi2 hz
          · intro z hz
            rw [hx] at hz; cases hz
            exact hxm
      | false =>
        obtain ⟨a', s', hrun, hlen, hperm, hF, hM, _, hS, hO⟩ :=
          ih (c + 1) a sorted (by omega) h2 (by omega)
        refine ⟨a', s', ?_, hlen, hperm, ?_, ?_, ?_, ?_, ?_⟩
        · simp [BubbleSort.pass, hce, deref_of_getElem? hx, deref_of_getElem? hy, hxy, hrun]
        · intro i hi
          exact hF i (by omega)
        · intro i hi1 hi2
          by_cases hic : i = c
          · subst hic
            exact ⟨i, le_refl _, hi2, hF i (by omega)⟩
          · obtain ⟨k, hk1, hk2, hk⟩ := hM i (by omega) hi2
            exact ⟨k, by omega, hk2, hk⟩
        · intro h; exact absurd h hce
        · intro hs
          obtain ⟨h1, h2, h3⟩ := hS hs
          refine ⟨h1, h2, ?_⟩
          intro i u v hi1 hi2 hu hv
          by_cases hic : i = c
          · subst hic
            rw [hx] at hu; rw [hy] at hv
            cases hu; cases hv
            exact hxy
          · exact h3 i u v (by omega) hi2 hu hv
        · intro hswo m hm
          obtain ⟨hO1, hO2⟩ := hO hswo m hm
          have hym : comparator y m = false := hO2 y hy
          have hxm : comparator x m = false := hswo.le_trans hxy hym
          refine ⟨?_, ?_⟩
          · intro i z hi1 hi2 hz
            by_cases hic : i = c
            · subst hic
              rw [hF i (by omega), hx] at hz
              cases hz
              exact hxm
            · exact hO1 i z (by omega) hi2 hz
          · intro z hz
            rw [hx] at hz; cases hz
            exact hxm

/-! ## BubbleSort: the outer loop -/

theorem retreat_one {it : Nat} (h : 1 ≤ it) : retreat it = .ok (it - 1) := by
  simp [retreat]; omega

/-- The `while` loop of `BubbleSort` started with upper bound `e`: it completes with a
permutation, and the result is ordered if every element at a position `≥ e` is already in
its final place. -/
theorem BubbleSort_loop_spec (comparator : α → α → Bool) :
    ∀ (fuel e : Nat) (a : List α), 1 ≤ e → e ≤ a.length → e ≤ fuel →
      ∃ a', BubbleSort.loop comparator 0 fuel e a = .ok a' ∧ a'.length = a.length ∧
        List.Perm a' a ∧
        (StrictWeakOrdering comparator →
          (∀ i j x y, i < j → e ≤ j → a[i]? = some x → a[j]? = some y →
            comparator x y = false) →
          ∀ i x y, a'[i]? = some x → a'[i + 1]? = some y → comparator x y = false) := by
  intro fuel
  induction fuel with
  | zero => intro e a h1 h2 h3; omega
  | succ fuel ih =>
    intro e a h1 h2 h3
    obtain ⟨a1, s, hrun, hlen, hperm, hF, hM, hZ, hS, hO⟩ :=
      BubbleSort_pass_spec comparator e (a.length + 1) 0 a true (by omega) h2 (by omega)
    cases s with
    | true =>
      obtain ⟨_, ha, hadj⟩ := hS rfl
      subst ha
      refine ⟨a1, ?_, rfl, List.Perm.refl _, ?_⟩
      · simp [BubbleSort.loop, hrun, retreat_one h1]
      · intro _ hinv i x y hx hy
        by_cases hi : i + 1 < e
        · exact hadj i x y (Nat.zero_le _) hi hx hy
        · exact hinv i (i + 1) x y (by omega) (by omega) hx hy
    | false =>
      have he : 2 ≤ e := by
        by_contra hcon
        have : 0 + 1 = e := by omega
        have := hZ this
        cases this
      obtain ⟨a', hrun', hlen', hperm', hord⟩ :=
        ih (e - 1) a1 (by omega) (by omega) (by omega)
      refine ⟨a', ?_, by omega, hperm'.trans hperm, ?_⟩
      · simp [BubbleSort.loop, hrun, retreat_one h1, hrun']
      · intro hswo hinv
        apply hord hswo
        intro i j x y hij hj hx hy
        by_cases hje : e ≤ j
        · rw [hF j (Or.inr hje)] at hy
          by_cases hie : e ≤ i
          · rw [hF i (Or.inr hie)] at hx
            exact hinv i j x y hij hje hx hy
          · obtain ⟨k, _, hk2, hk⟩ := hM i (Nat.zero_le _) (by omega)
            rw [hk] at hx
            exact hinv k j x y (by omega) hje hx hy
        · have hj1 : j = e - 1 := by omega
          subst hj1
          exact (hO hswo y hy).1 i x (Nat.zero_le _) (by omega) hx

/-- `BubbleSort` over a whole non-empty vector. -/
theorem BubbleSort_spec (comparator : α → α → Bool) (v : List α) (hv : v ≠ []) :
    ∃ r, BubbleSort comparator 0 v.length v = .ok r ∧ List.Perm r v ∧
      (StrictWeakOrdering comparator → Ordered comparator r) := by
  have hlen : 1 ≤ v.length := by
    cases v with
    | nil => exact absurd rfl hv
    | cons => simp
  obtain ⟨r, hrun, _, hperm, hord⟩ :=
    BubbleSort_loop_spec comparator (v.length + 1) v.length v hlen (le_refl _) (by omega)
  refine ⟨r, hrun, hperm, ?_⟩
  intro hswo
  have := hord hswo (by
    intro i j x y _ hj _ hy
    have := lt_length_of_getElem? hy
    omega)
  unfold Ordered
  rw [List.chain'_iff_get]
  intro i hi
  exact this i _ _ (List.getElem?_eq_getElem _) (List.getElem?_eq_getElem _)

/-! ## SelectionSort: correctness -/

theorem StrictWeakOrdering.le_of_lt_of_le {comparator : α → α → Bool}
    (h : StrictWeakOrdering comparator) {x v y : α}
    (hxv : comparator x v = true) (hxy : comparator x y = false) : comparator v y = false := by
  by_contra hvy
  have := h.trans x v y hxv (by simpa using hvy)
  rw [hxy] at this
  exact Bool.false_ne_true this

theorem ordered_of_adjacent {comparator : α → α → Bool} {r : List α}
    (h : ∀ i x y, r[i]? = some x → r[i + 1]? = some y → comparator x y = false) :
    Ordered comparator r := by
  unfold Ordered
  rw [List.chain'_iff_get]
  intro i hi
  exact h i _ _ (List.getElem?_eq_getElem _) (List.getElem?_eq_getElem _)

/-- The scan of `SelectionSort` for the pivot position `p`: it completes with a position
`m` in `[p, e)`, equal to the starting `min` when nothing was found, and under a strict
weak ordering no element of `[p, e)` has to precede the element at `m`. -/
theorem SelectionSort_scan_spec (comparator : α → α → Bool) (e : Nat) (a : List α) (p : Nat) :
    ∀ (fuel value min : Nat) (found : Bool), p ≤ min → min < value → value ≤ e →
      e ≤ a.length → e - value < fuel →
      ∃ m f, SelectionSort.scan comparator e a fuel value min found = .ok (m, f) ∧
        p ≤ m ∧ m < e ∧ (f = false → found = false ∧ m = min) ∧
        (StrictWeakOrdering comparator →
          (∀ j x y, p ≤ j → j < value → a[min]? = some x → a[j]? = some y →
            comparator x y = false) →
          ∀ j x y, p ≤ j → j < e → a[m]? = some x → a[j]? = some y →
            comparator x y = false) := by
  intro fuel
  induction fuel with
  | zero => intro value min found h1 h2 h3 h4 h5; omega
  | succ fuel ih =>
    intro value min found h1 h2 h3 h4 h5
    by_cases hve : value = e
    · refine ⟨min, found, by simp [SelectionSort.scan, hve], h1, by omega, fun h => ⟨h, rfl⟩, ?_⟩
      intro _ hinv j x y hj1 hj2 hx hy
      exact hinv j x y hj1 (by omega) hx hy
    · obtain ⟨x, hx⟩ := exists_getElem? (show min < a.length by omega)
      obtain ⟨v, hv⟩ := exists_getElem? (show value < a.length by omega)
      cases hxv : comparator x v with
      | true =>
        obtain ⟨m, f, hrun, hm1, hm2, hf, hO⟩ :=
          ih (value + 1) value true (by omega) (by omega) (by omega) h4 (by omega)
        refine ⟨m, f, ?_, hm1, hm2, ?_, ?_⟩
        · simp [SelectionSort.scan, hve, deref_of_getElem? hx, deref_of_getElem? hv, hxv, hrun]
        · intro h
          have := (hf h).1
          cases this
        · intro hswo hinv
          apply hO hswo
          intro j u w hj1 hj2 hu hw
          rw [hv] at hu; cases hu
          by_cases hjv : j = value
          · subst hjv
            rw [hv] at hw; cases hw
            exact hswo.irrefl _
          · exact hswo.le_of_lt_of_le hxv (hinv j x w hj1 (by omega) hx hw)
      | false =>
        obtain ⟨m, f, hrun, hm1, hm2, hf, hO⟩ :=
          ih (value + 1) min found h1 (by omega) (by omega) h4 (by omega)
        refine ⟨m, f, ?_, hm1, hm2, hf, ?_⟩
        · simp [SelectionSort.scan, hve, deref_of_getElem? hx, deref_of_getElem? hv, hxv, hrun]
        · intro hswo hinv
          apply hO hswo
          intro j u w hj1 hj2 hu hw
          rw [hx] at hu; cases hu
          by_cases hjv : j = value
          · subst hjv
            rw [hv] at hw; cases hw
            exact hxv
          · exact hinv j x w hj1 (by omega) hx hw

/-- The outer loop of `SelectionSort` from pivot position `p` on a storage of `n` elements. -/
theorem SelectionSort_loop_spec (comparator : α → α → Bool) (n : Nat) :
    ∀ (fuel p : Nat) (a : List α), a.length = n → p < n → n - p ≤ fuel →
      ∃ a', SelectionSort.loop comparator n (n - 1) fuel p a = .ok a' ∧ a'.length = n ∧
        List.Perm a' a ∧
        (StrictWeakOrdering comparator →
          (∀ i j x y, i < j → i < p → a[i]? = some x → a[j]? = some y →
            comparator x y = false) →
          ∀ (i j : Nat) x y, i < j → a'[i]? = some x → a'[j]? = some y →
            comparator x y = false) := by
  intro fuel
  induction fuel with
  | zero => intro p a h1 h2 h3; omega
  | succ fuel ih =>
    intro p a h1 h2 h3
    by_cases hpl : p = n - 1
    · refine ⟨a, by simp [SelectionSort.loop, hpl], h1, List.Perm.refl _, ?_⟩
      intro _ hinv i j x y hij hx hy
      have := lt_length_of_getElem? hy
      exact hinv i j x y hij (by omega) hx hy
    · obtain ⟨m, f, hscan, hm1, hm2, hf, hO⟩ :=
        SelectionSort_scan_spec comparator n a p (a.length + 1) (p + 1) p false (le_refl _)
          (by omega) (by omega) (by omega) (by omega)
      obtain ⟨xp, hxp⟩ := exists_getElem? (show p < a.length by omega)
      obtain ⟨xm, hxm⟩ := exists_getElem? (show m < a.length by omega)
      -- the storage after the optional swap
      obtain ⟨a1, hstep, hlen1, hperm1, hget1⟩ : ∃ a1,
          SelectionSort.loop comparator n (n - 1) (fuel + 1) p a =
            SelectionSort.loop comparator n (n - 1) fuel (p + 1) a1 ∧
          a1.length = n ∧ List.Perm a1 a ∧
          ∀ k, a1[k]? = if k = m then some xp else if k = p then some xm else a[k]? := by
        cases f with
        | true =>
          refine ⟨(a.set p xm).set m xp, ?_, by simpa using h1,
            perm_set_set hxp hxm, getElem?_set_set hxp hxm⟩
          simp [SelectionSort.loop, hpl, hscan, iter_swap_of_getElem? hxp hxm]
        | false =>
          have hmp : m = p := (hf rfl).2
          subst hmp
          refine ⟨a, by simp [SelectionSort.loop, hpl, hscan], h1, List.Perm.refl _, ?_⟩
          intro k
          by_cases hk : k = m
          · subst hk; simp [hxp]
          · simp [hk]
      obtain ⟨a', hrun', hlen', hperm', hord⟩ := ih (p + 1) a1 hlen1 (by omega) (by omega)
      refine ⟨a', ?_, hlen', hperm'.trans hperm1, ?_⟩
      · rw [hstep, hrun']
      · intro hswo hinv
        have hmin := hO hswo (by
          intro j x y hj1 hj2 hx hy
          have : j = p := by omega
          subst this
          rw [hx] at hy; cases hy
          exact hswo.irrefl _)
        apply hord hswo
        intro i j x y hij hi hx hy
        have hjn : j < n := by have := lt_length_of_getElem? hy; omega
        -- the element at `j` of `a1` sits at some position `k ≥ p`, `k > i` of `a`
        by_cases hip : i = p
        · subst hip
          have hx' : a[m]? = some x := by
            rw [hget1] at hx
            by_cases h : i = m
            · subst h; simp at hx; rw [hxp]; simpa using hx
            · simp [h] at hx; rw [hxm]; simpa using hx
          rw [hget1] at hy
          by_cases hjm : j = m
          · simp [hjm] at hy
            subst hy
            exact hmin i x xp (le_refl _) h2 hx' hxp
          · have : j ≠ i := by omega
            simp [hjm, this] at hy
            exact hmin j x y (by omega) hjn hx' hy
        · have hi' : i < p := by omega
          have hx' : a[i]? = some x := by
            rw [hget1] at hx
            have h1 : i ≠ m := by omega
            simpa [h1, hip] using hx
          rw [hget1] at hy
          by_cases hjm : j = m
          · simp [hjm] at hy
            subst hy
            exact hinv i p x xp hi' hi' hx' hxp
          · by_cases hjp : j = p
            · subst hjp
              simp [hjm] at hy
              subst hy
              exact hinv i m x xm (by omega) hi' hx' hxm
            · simp [hjm, hjp] at hy
              exact hinv i j x y hij hi' hx' hy

/-- `SelectionSort` over a whole non-empty vector. -/
theorem SelectionSort_spec (comparator : α → α → Bool) (v : List α) (hv : v ≠ []) :
    ∃ r, SelectionSort comparator 0 v.length v = .ok r ∧ List.Perm r v ∧
      (StrictWeakOrdering comparator → Ordered comparator r) := by
  have hlen : 1 ≤ v.length := by
    cases v with
    | nil => exact absurd rfl hv
    | cons => simp
  obtain ⟨r, hrun, _, hperm, hord⟩ :=
    SelectionSort_loop_spec comparator v.length (v.length + 1) 0 v rfl (by omega) (by omega)
  refine ⟨r, by simp [SelectionSort, retreat_one hlen, hrun], hperm, ?_⟩
  intro hswo
  apply ordered_of_adjacent
  intro i x y hx hy
  exact hord hswo (by intro i j x y _ hi; omega) i (i + 1) x y (by omega) hx hy

/-! ## InsertionSort: correctness -/

theorem set_eq_self_of_getElem? {a : List α} {i : Nat} {x : α} (h : a[i]? = some x) :
    a.set i x = a := by
  apply List.ext_getElem?
  intro k
  rw [List.getElem?_set]
  by_cases hk : i = k
  · subst hk; simp [lt_length_of_getElem? h, h]
  · simp [hk]

/-- Shifting one element to the right is an exchange in the list in which the vacated
position already holds the pivot value. -/
theorem set_set_shift (a : List α) (c : Nat) (x pv : α) (hc : 1 ≤ c) :
    (a.set c x).set (c - 1) pv = (((a.set c pv).set (c - 1) pv).set c x) := by
  apply List.ext_getElem?
  intro k
  simp only [List.getElem?_set, List.length_set]
  by_cases h1 : c = k
  · have h2 : c - 1 ≠ k := by omega
    subst h1
    simp [h2]
  · by_cases h2 : c - 1 = k
    · simp [h1, h2]
    · simp [h1, h2]

/-- The shifting loop of `InsertionSort`, stated for the list in which the vacated position
`c` holds the pivot value: every step exchanges two neighbours of that list. -/
theorem InsertionSort_shift_spec (comparator : α → α → Bool) (pv : α) (P : Nat) :
    ∀ (fuel c : Nat) (a : List α), 1 ≤ c → c ≤ P → P < a.length → c ≤ fuel →
      ∃ a' c', InsertionSort.shift comparator 0 pv fuel c c a = .ok (a', c') ∧ c' ≤ c ∧
        a'.length = a.length ∧ List.Perm (a'.set c' pv) (a.set c pv) ∧
        (StrictWeakOrdering comparator →
          (∀ (i j : Nat) x y, i < j → j ≤ P → j ≠ c → (a.set c pv)[i]? = some x →
            (a.set c pv)[j]? = some y → comparator x y = false) →
          ∀ (i j : Nat) x y, i < j → j ≤ P → (a'.set c' pv)[i]? = some x →
            (a'.set c' pv)[j]? = some y → comparator x y = false) := by
  intro fuel
  induction fuel with
  | zero => intro c a h1 h2 h3 h4; omega
  | succ fuel ih =>
    intro c a h1 h2 h3 h4
    obtain ⟨x, hx⟩ := exists_getElem? (show c - 1 < a.length by omega)
    have hVc : (a.set c pv)[c]? = some pv := by
      rw [List.getElem?_set]; simp; omega
    have hVx : (a.set c pv)[c - 1]? = some x := by
      rw [List.getElem?_set]
      have : c ≠ c - 1 := by omega
      simp [this, hx]
    cases hxp : comparator x pv with
    | false =>
      refine ⟨a, c, ?_, le_refl _, rfl, List.Perm.refl _, ?_⟩
      · simp [InsertionSort.shift, retreat_one h1, deref_of_getElem? hx, hxp]
      · intro hswo hJ i j u w hij hjP hu hw
        by_cases hjc : j = c
        · subst hjc
          rw [hVc] at hw
          have hwp := Option.some.inj hw
          subst hwp
          by_cases hic : i = j - 1
          · subst hic
            rw [hVx] at hu
            have := Option.some.inj hu
            subst this
            exact hxp
          · exact hswo.le_trans (hJ i (j - 1) u x (by omega) (by omega) (by omega) hu hVx) hxp
        · exact hJ i j u w hij hjP hjc hu hw
    | true =>
      have hperm1 : List.Perm ((a.set c x).set (c - 1) pv) (a.set c pv) := by
        rw [set_set_shift a c x pv h1]
        exact perm_set_set hVx hVc
      have hget1 : ∀ k, ((a.set c x).set (c - 1) pv)[k]? =
          if k = c then some x else if k = c - 1 then some pv else (a.set c pv)[k]? := by
        rw [set_set_shift a c x pv h1]
        exact getElem?_set_set hVx hVc
      -- the order statement for the list after this shift
      have hJ1 : StrictWeakOrdering comparator →
          (∀ (i j : Nat) x y, i < j → j ≤ P → j ≠ c → (a.set c pv)[i]? = some x →
            (a.set c pv)[j]? = some y → comparator x y = false) →
          ∀ (i j : Nat) u w, i < j → j ≤ P → j ≠ c - 1 →
            ((a.set c x).set (c - 1) pv)[i]? = some u →
            ((a.set c x).set (c - 1) pv)[j]? = some w → comparator u w = false := by
        intro hswo hJ i j u w hij hjP hjc hu hw
        rw [hget1] at hu hw
        by_cases hj : j = c
        · subst hj
          simp at hw
          subst hw
          have hi1 : i ≠ j := by omega
          by_cases hi2 : i = j - 1
          · subst hi2
            simp [hi1] at hu
            subst hu
            exact hswo.asymm hxp
          · simp [hi1, hi2] at hu
            exact hJ i (j - 1) u x (by omega) (by omega) (by omega) hu hVx
        · simp [hj, hjc] at hw
          by_cases hi1 : i = c
          · subst hi1
            simp at hu
            subst hu
            exact hJ (i - 1) j x w (by omega) hjP hj hVx hw
          · by_cases hi2 : i = c - 1
            · subst hi2
              simp [hi1] at hu
              subst hu
              by_cases hjlt : j < c
              · omega
              · exact hJ c j pv w (by omega) hjP hj hVc hw
            · simp [hi1, hi2] at hu
              exact hJ i j u w hij hjP hj hu hw
      by_cases hc0 : c - 1 = 0
      · refine ⟨a.set c x, c - 1, ?_, by omega, by simp, hperm1, ?_⟩
        · have hx0 : a[0]? = some x := by rw [hc0] at hx; exact hx
          simp [InsertionSort.shift, retreat_one h1, deref_of_getElem? hx0, hxp,
            assign_of_lt x (show c < a.length by omega), hc0]
        · intro hswo hJ i j u w hij hjP hu hw
          exact hJ1 hswo hJ i j u w hij hjP (by omega) hu hw
      · obtain ⟨a', c', hrun, hc', hlen, hperm, hO⟩ :=
          ih (c - 1) (a.set c x) (by omega) (by omega) (by simp; omega) (by omega)
        refine ⟨a', c', ?_, by omega, by simpa using hlen, hperm.trans hperm1, ?_⟩
        · simp [InsertionSort.shift, retreat_one h1, deref_of_getElem? hx, hxp,
            assign_of_lt x (show c < a.length by omega), hc0, hrun]
        · intro hswo hJ
          exact hO hswo (hJ1 hswo hJ)

/-- The outer loop of `InsertionSort` from pivot position `p` on a storage of `n` elements. -/
theorem InsertionSort_loop_spec (comparator : α → α → Bool) (n : Nat) :
    ∀ (fuel p : Nat) (a : List α), a.length = n → 1 ≤ p → p ≤ n → n - p < fuel →
      ∃ a', InsertionSort.loop comparator 0 n fuel p a = .ok a' ∧ a'.length = n ∧
        List.Perm a' a ∧
        (StrictWeakOrdering comparator →
          (∀ (i j : Nat) x y, i < j → j < p → a[i]? = some x → a[j]? = some y →
            comparator x y = false) →
          ∀ (i j : Nat) x y, i < j → a'[i]? = some x → a'[j]? = some y →
            comparator x y = false) := by
  intro fuel
  induction fuel with
  | zero => intro p a h1 h2 h3 h4; omega
  | succ fuel ih =>
    intro p a h1 h2 h3 h4
    by_cases hpn : p = n
    · refine ⟨a, by simp [InsertionSort.loop, hpn], h1, List.Perm.refl _, ?_⟩
      intro _ hK i j x y hij hx hy
      have := lt_length_of_getElem? hy
      exact hK i j x y hij (by omega) hx hy
    · obtain ⟨pv, hpv⟩ := exists_getElem? (show p < a.length by omega)
      obtain ⟨a1, c, hshift, hc, hlen1, hperm1, hO⟩ :=
        InsertionSort_shift_spec comparator pv p (a.length + 1) p a h2 (le_refl _) (by omega)
          (by omega)
      rw [set_eq_self_of_getElem? hpv] at hperm1 hO
      obtain ⟨a', hrun, hlen', hperm', hord⟩ :=
        ih (p + 1) (a1.set c pv) (by simp; omega) (by omega) (by omega) (by omega)
      refine ⟨a', ?_, hlen', hperm'.trans hperm1, ?_⟩
      · simp [InsertionSort.loop, hpn, deref_of_getElem? hpv, hshift,
          assign_of_lt pv (show c < a1.length by omega), hrun]
      · intro hswo hK
        apply hord hswo
        intro i j x y hij hj hx hy
        apply hO hswo ?_ i j x y hij (by omega) hx hy
        intro i j x y hij hj1 hj2 hx hy
        exact hK i j x y hij (by omega) hx hy

/-- `InsertionSort` over a whole non-empty vector. -/
theorem InsertionSort_spec (comparator : α → α → Bool) (v : List α) (hv : v ≠ []) :
    ∃ r, InsertionSort comparator 0 v.length v = .ok r ∧ List.Perm r v ∧
      (StrictWeakOrdering comparator → Ordered comparator r) := by
  have hlen : 1 ≤ v.length := by
    cases v with
    | nil => exact absurd rfl hv
    | cons => simp
  obtain ⟨r, hrun, _, hperm, hord⟩ :=
    InsertionSort_loop_spec comparator v.length (v.length + 1) 1 v rfl (le_refl _) hlen
      (by omega)
  refine ⟨r, by simpa [InsertionSort] using hrun, hperm, ?_⟩
  intro hswo
  apply ordered_of_adjacent
  intro i x y hx hy
  exact hord hswo (by intro i j x y hij hj; omega) i (i + 1) x y (by omega) hx hy

/-! ## MergeSort: the merge step -/

theorem getElem?_length_append (W : List α) (r : α) (rest : List α) :
    (W ++ r :: rest)[W.length]? = some r := by
  induction W with
  | nil => simp
  | cons w W ih => simpa using ih

theorem set_length_append (W : List α) (r x : α) (rest : List α) :
    (W ++ r :: rest).set W.length x = W ++ x :: rest := by
  induction W with
  | nil => simp
  | cons w W ih => simp [ih]

theorem assign_length_append (W : List α) (r x : α) (rest : List α) :
    assign (W ++ r :: rest) W.length x = .ok (W ++ x :: rest) := by
  rw [assign_of_lt x (by simp), set_length_append]

/-- The copy loop returns the copied run appended to the buffer. -/
theorem _MergeSubData_copy_spec (C : List α) :
    ∀ (P Q buffer : List α),
      _MergeSubData.copy (P ++ C ++ Q) C.length P.length buffer = .ok (buffer ++ C) := by
  induction C with
  | nil => intro P Q buffer; simp [_MergeSubData.copy]
  | cons x C ih =>
    intro P Q buffer
    have hx : (P ++ x :: C ++ Q)[P.length]? = some x := by
      rw [List.append_assoc, List.cons_append]
      exact getElem?_length_append P x (C ++ Q)
    have hre : P ++ x :: C ++ Q = (P ++ [x]) ++ C ++ Q := by simp
    have := ih (P ++ [x]) Q (buffer ++ [x])
    simp only [List.length_append, List.length_singleton] at this
    simp only [List.length_cons, _MergeSubData.copy, deref_of_getElem? hx]
    rw [hre, this]
    simp

/-- A trailing loop writes what is left of a buffer behind the part written so far. -/
theorem _MergeSubData_drain_spec (xs : List α) :
    ∀ (W rest : List α), xs.length ≤ rest.length →
      _MergeSubData.drain xs W.length (W ++ rest) =
        .ok (W ++ xs ++ rest.drop xs.length, W.length + xs.length) := by
  induction xs with
  | nil => intro W rest _; simp [_MergeSubData.drain]
  | cons x xs ih =>
    intro W rest h
    cases rest with
    | nil => simp at h
    | cons q rest =>
      have := ih (W ++ [x]) rest (by simpa using h)
      simp only [List.length_append, List.length_singleton] at this
      simp only [_MergeSubData.drain, assign_length_append]
      rw [show W ++ x :: rest = (W ++ [x]) ++ rest by simp, this]
      simp
      omega

/-- The interleaving loop: it stops with one buffer used up, what it wrote together with
what is left is a permutation of the two buffers, and is ordered when both buffers are. -/
theorem _MergeSubData_merge_spec (comparator : α → α → Bool) :
    ∀ (fuel : Nat) (ls rs W rest : List α), ls.length + rs.length ≤ fuel →
      ls.length + rs.length ≤ rest.length →
      ∃ out ls' rs', _MergeSubData.merge comparator fuel ls rs W.length (W ++ rest) =
          .ok (W ++ out ++ rest.drop out.length, W.length + out.length, ls', rs') ∧
        (ls' = [] ∨ rs' = []) ∧
        List.Perm (out ++ ls' ++ rs') (ls ++ rs) ∧
        (StrictWeakOrdering comparator →
          List.Pairwise (fun x y => comparator x y = false) ls →
          List.Pairwise (fun x y => comparator x y = false) rs →
          List.Pairwise (fun x y => comparator x y = false) (out ++ ls' ++ rs')) := by
  intro fuel
  induction fuel with
  | zero =>
    intro ls rs W rest h1 h2
    have hl : ls = [] := by
      cases ls with
      | nil => rfl
      | cons => simp at h1
    have hr : rs = [] := by
      cases rs with
      | nil => rfl
      | cons => simp at h1
    subst hl hr
    exact ⟨[], [], [], by simp [_MergeSubData.merge], Or.inl rfl, by simp, by simp⟩
  | succ fuel ih =>
    intro ls rs W rest h1 h2
    cases ls with
    | nil =>
      exact ⟨[], [], rs, by simp [_MergeSubData.merge], Or.inl rfl, by simp,
        fun _ _ h => by simpa using h⟩
    | cons l ls =>
      cases rs with
      | nil =>
        exact ⟨[], l :: ls, [], by simp [_MergeSubData.merge], Or.inr rfl, by simp,
          fun _ h _ => by simpa using h⟩
      | cons r rs =>
        cases rest with
        | nil => simp at h2
        | cons q rest =>
          cases hrl : comparator r l with
          | true =>
            obtain ⟨out, ls', rs', hrun, hemp, hperm, hO⟩ :=
              ih ls (r :: rs) (W ++ [l]) rest (by simp at h1 ⊢; omega) (by simp at h2 ⊢; omega)
            simp only [List.length_append, List.length_singleton] at hrun
            refine ⟨l :: out, ls', rs', ?_, hemp, ?_, ?_⟩
            · simp only [_MergeSubData.merge, hrl, if_true, assign_length_append]
              rw [show W ++ l :: rest = (W ++ [l]) ++ rest by simp, hrun]
              simp
              omega
            · simpa using hperm.cons l
            · intro hswo hL hR
              rw [List.pairwise_cons] at hL
              have hR' := hR
              rw [List.pairwise_cons] at hR'
              have hlr : comparator l r = false := hswo.asymm hrl
              simp only [List.cons_append, List.pairwise_cons]
              refine ⟨?_, hO hswo hL.2 hR⟩
              intro y hy
              have hy' : y ∈ ls ++ r :: rs := hperm.mem_iff.mp hy
              rw [List.mem_append, List.mem_cons] at hy'
              rcases hy' with h | h | h
              · exact hL.1 y h
              · subst h; exact hlr
              · exact hswo.le_trans hlr (hR'.1 y h)
          | false =>
            obtain ⟨out, ls', rs', hrun, hemp, hperm, hO⟩ :=
              ih (l :: ls) rs (W ++ [r]) rest (by simp at h1 ⊢; omega) (by simp at h2 ⊢; omega)
            simp only [List.length_append, List.length_singleton] at hrun
            refine ⟨r :: out, ls', rs', ?_, hemp, ?_, ?_⟩
            · simp only [_MergeSubData.merge, hrl, Bool.false_eq_true, if_false,
                assign_length_append]
              rw [show W ++ r :: rest = (W ++ [r]) ++ rest by simp, hrun]
              simp
              omega
            · have h1 : List.Perm (r :: (out ++ ls' ++ rs')) (r :: (l :: ls ++ rs)) :=
                hperm.cons r
              have h2 : List.Perm (r :: (l :: ls ++ rs)) (l :: ls ++ r :: rs) :=
                (List.perm_middle).symm
              simpa using h1.trans h2
            · intro hswo hL hR
              have hL' := hL
              rw [List.pairwise_cons] at hL'
              rw [List.pairwise_cons] at hR
              simp only [List.cons_append, List.pairwise_cons]
              refine ⟨?_, hO hswo hL hR.2⟩
              intro y hy
              have hy' : y ∈ l :: ls ++ rs := hperm.mem_iff.mp hy
              rw [List.mem_append, List.mem_cons] at hy'
              rcases hy' with (h | h) | h
              · subst h; exact hrl
              · exact hswo.le_trans hrl (hL'.1 y h)
              · exact hR.1 y h

/-! ## MergeSort: the recursion -/

theorem distance_of_le {a b : Nat} (h : a ≤ b) : distance a b = b - a := by
  simp [distance, h]

/-- `_MergeSubData` on the storage `X ++ L ++ R ++ Y` replaces `L ++ R` by a permutation
`M` of it, ordered when `L` and `R` are. -/
theorem _MergeSubData_spec (comparator : α → α → Bool) (X L R Y : List α)
    (left middle right : Nat) (hl : left = X.length) (hm : middle + 1 = X.length + L.length)
    (hr : right + 1 = X.length + L.length + R.length) (hL : 1 ≤ L.length) :
    ∃ M, _MergeSubData comparator left middle right (X ++ L ++ R ++ Y) = .ok (X ++ M ++ Y) ∧
      List.Perm M (L ++ R) ∧
      (StrictWeakOrdering comparator →
        List.Pairwise (fun x y => comparator x y = false) L →
        List.Pairwise (fun x y => comparator x y = false) R →
        List.Pairwise (fun x y => comparator x y = false) M) := by
  have hd1 : distance left middle + 1 = L.length := by
    rw [distance_of_le (by omega)]; omega
  have hd2 : distance middle right = R.length := by
    rw [distance_of_le (by omega)]; omega
  have hc1 : _MergeSubData.copy (X ++ L ++ R ++ Y) L.length left [] = .ok L := by
    have := _MergeSubData_copy_spec L X (R ++ Y) []
    rw [hl]
    simpa using this
  have hc2 : _MergeSubData.copy (X ++ L ++ R ++ Y) R.length (middle + 1) [] = .ok R := by
    have := _MergeSubData_copy_spec R (X ++ L) Y []
    rw [hm]
    simpa using this
  obtain ⟨out, ls', rs', hmerge, hemp, hperm, hO⟩ :=
    _MergeSubData_merge_spec comparator (L.length + R.length) L R X (L ++ R ++ Y) (le_refl _)
      (by simp)
  have hlen := hperm.length_eq
  simp only [List.length_append] at hlen
  have hdr1 := _MergeSubData_drain_spec ls' (X ++ out) ((L ++ R ++ Y).drop out.length)
    (by simp; omega)
  have hdr2 := _MergeSubData_drain_spec rs' (X ++ out ++ ls')
    (((L ++ R ++ Y).drop out.length).drop ls'.length) (by simp; omega)
  simp only [List.length_append] at hdr1 hdr2
  have hY : (((L ++ R ++ Y).drop out.length).drop ls'.length).drop rs'.length = Y := by
    rw [List.drop_drop, List.drop_drop]
    have : out.length + (ls'.length + rs'.length) = (L ++ R).length := by
      simp only [List.length_append]; omega
    rw [this, List.drop_left]
  refine ⟨out ++ ls' ++ rs', ?_, hperm, hO⟩
  simp only [_MergeSubData, hd1, hd2, hc1, hc2]
  rw [hl, show X ++ L ++ R ++ Y = X ++ (L ++ R ++ Y) by simp, hmerge]
  simp only [hdr1, hdr2, hY]
  simp

/-- `_MergeSortImp` on the storage `X ++ S ++ Y` with `left`, `right` the first and last
position of `S` replaces `S` by an ordered permutation of it. -/
theorem _MergeSortImp_spec (comparator : α → α → Bool) :
    ∀ (fuel : Nat) (X S Y : List α) (left right : Nat), left = X.length →
      right + 1 = X.length + S.length → 1 ≤ S.length → S.length ≤ fuel →
      ∃ S', _MergeSortImp comparator 0 fuel left right (X ++ S ++ Y) = .ok (X ++ S' ++ Y) ∧
        List.Perm S' S ∧
        (StrictWeakOrdering comparator →
          List.Pairwise (fun x y => comparator x y = false) S') := by
  intro fuel
  induction fuel with
  | zero => intro X S Y left right h1 h2 h3 h4; omega
  | succ fuel ih =>
    intro X S Y left right h1 h2 h3 h4
    by_cases hlr : left ≥ right
    · refine ⟨S, ?_, List.Perm.refl _, ?_⟩
      · simp [_MergeSortImp, distance_of_le, hlr]
      · intro _
        have hS1 : S.length = 1 := by omega
        obtain ⟨x, hx⟩ := List.length_eq_one.mp hS1
        subst hx
        simp
    · have hlt : left < right := by omega
      have hmid1 : left ≤ (left + right - 1) / 2 := by omega
      have hmid2 : (left + right - 1) / 2 < right := by omega
      generalize hmid : (left + right - 1) / 2 = middle at hmid1 hmid2
      have hS : S = S.take (middle + 1 - left) ++ S.drop (middle + 1 - left) :=
        (List.take_append_drop _ _).symm
      have hlen1 : (S.take (middle + 1 - left)).length = middle + 1 - left := by
        rw [List.length_take]; omega
      have hlen2 : (S.drop (middle + 1 - left)).length = right - middle := by
        rw [List.length_drop]; omega
      generalize S.take (middle + 1 - left) = S1 at hS hlen1
      generalize S.drop (middle + 1 - left) = S2 at hS hlen2
      subst hS
      obtain ⟨S1', hrun1, hperm1, hO1⟩ :=
        ih X S1 (S2 ++ Y) left middle h1 (by omega) (by omega) (by omega)
      have hl1 := hperm1.length_eq
      obtain ⟨S2', hrun2, hperm2, hO2⟩ :=
        ih (X ++ S1') S2 Y (middle + 1) right (by simp; omega) (by simp; omega) (by omega)
          (by omega)
      have hl2 := hperm2.length_eq
      obtain ⟨M, hrun3, hperm3, hO3⟩ :=
        _MergeSubData_spec comparator X S1' S2' Y left middle right h1 (by omega) (by omega)
          (by omega)
      refine ⟨M, ?_, hperm3.trans (hperm1.append hperm2), ?_⟩
      · have e1 : X ++ (S1 ++ S2) ++ Y = X ++ S1 ++ (S2 ++ Y) := by simp
        have e2 : X ++ S1' ++ (S2 ++ Y) = X ++ S1' ++ S2 ++ Y := by simp
        simp only [_MergeSortImp, distance_of_le (Nat.zero_le _), Nat.sub_zero, Nat.zero_add,
          ge_iff_le, hlr, if_false, hmid]
        rw [e1, hrun1]
        simp only []
        rw [e2, hrun2]
        simp only []
        exact hrun3
      · intro hswo
        exact hO3 hswo (hO1 hswo) (hO2 hswo)

/-- `MergeSort` over a whole non-empty vector. -/
theorem MergeSort_spec (comparator : α → α → Bool) (v : List α) (hv : v ≠ []) :
    ∃ r, MergeSort comparator 0 0 v.length v = .ok r ∧ List.Perm r v ∧
      (StrictWeakOrdering comparator → Ordered comparator r) := by
  have hlen : 1 ≤ v.length := by
    cases v with
    | nil => exact absurd rfl hv
    | cons => simp
  obtain ⟨r, hrun, hperm, hord⟩ :=
    _MergeSortImp_spec comparator (v.length + 1) [] v [] 0 (v.length - 1) rfl
      (by simp; omega) hlen (by omega)
  simp only [List.nil_append, List.append_nil] at hrun
  refine ⟨r, by simp [MergeSort, retreat_one hlen, hrun], hperm, ?_⟩
  intro hswo
  exact (hord hswo).chain'

/-! ## QuickSort and DefaultSort: the position one past the end -/

theorem retreat_of_le {it k : Nat} (h : k ≤ it) : retreat it k = .ok (it - k) := by
  simp [retreat]; omega

/-- With all three candidates inside the storage the choice is one of them. -/
theorem _QuickSortPartition_choose_spec (comparator : α → α → Bool) (a : List α)
    (lq pv rq : Nat) (h1 : lq < a.length) (h2 : pv < a.length) (h3 : rq < a.length) :
    ∃ p, _QuickSortPartition.choose comparator a lq pv rq = .ok p ∧
      (p = lq ∨ p = pv ∨ p = rq) := by
  obtain ⟨x, hx⟩ := exists_getElem? h1
  obtain ⟨y, hy⟩ := exists_getElem? h2
  obtain ⟨z, hz⟩ := exists_getElem? h3
  simp only [_QuickSortPartition.choose, deref_of_getElem? hx, deref_of_getElem? hy,
    deref_of_getElem? hz]
  split_ifs <;> simp

/-- The right-quarter candidate is read whatever the first comparison gives. -/
theorem _QuickSortPartition_choose_fault (comparator : α → α → Bool) (a : List α)
    (lq pv rq : Nat) (h1 : lq < a.length) (h2 : pv < a.length) (h3 : a.length ≤ rq) :
    _QuickSortPartition.choose comparator a lq pv rq = .error (.outOfRange rq) := by
  obtain ⟨x, hx⟩ := exists_getElem? h1
  obtain ⟨y, hy⟩ := exists_getElem? h2
  simp only [_QuickSortPartition.choose, deref_of_getElem? hx, deref_of_getElem? hy,
    deref_of_le h3]

/-- The first scan of the partition step stays inside the storage when the pivot is
neither before `left` nor outside the storage. -/
theorem _QuickSortPartition_scanLeft_ok (comparator : α → α → Bool) (p : Nat) :
    ∀ (fuel left pivot_index : Nat) (a : List α), pivot_index ≤ left → left ≤ p →
      p < a.length → p - left < fuel →
      ∃ a' k, _QuickSortPartition.scanLeft comparator p fuel left pivot_index a = .ok (a', k) ∧
        a'.length = a.length ∧ k ≤ p := by
  intro fuel
  induction fuel with
  | zero => intro left pivot_index a h1 h2 h3 h4; omega
  | succ fuel ih =>
    intro left pivot_index a h1 h2 h3 h4
    by_cases hlp : left = p
    · exact ⟨a, pivot_index, by simp [_QuickSortPartition.scanLeft, hlp], rfl, by omega⟩
    · obtain ⟨pv, hpv⟩ := exists_getElem? h3
      obtain ⟨x, hx⟩ := exists_getElem? (show left < a.length by omega)
      obtain ⟨y, hy⟩ := exists_getElem? (show pivot_index < a.length by omega)
      cases hc : comparator pv x with
      | true =>
        obtain ⟨a', k, hrun, hlen, hk⟩ :=
          ih (left + 1) (pivot_index + 1) ((a.set left y).set pivot_index x) (by omega)
            (by omega) (by simpa using h3) (by omega)
        refine ⟨a', k, ?_, by simpa using hlen, hk⟩
        simp [_QuickSortPartition.scanLeft, hlp, deref_of_getElem? hpv, deref_of_getElem? hx, hc,
          iter_swap_of_getElem? hx hy, hrun]
      | false =>
        obtain ⟨a', k, hrun, hlen, hk⟩ :=
          ih (left + 1) pivot_index a (by omega) (by omega) h3 (by omega)
        refine ⟨a', k, ?_, hlen, hk⟩
        simp [_QuickSortPartition.scanLeft, hlp, deref_of_getElem? hpv, deref_of_getElem? hx, hc,
          hrun]

/-- The partition step called with `right` one past the last element of the storage
dereferences that position. -/
theorem _QuickSortPartition_past_end (comparator : α → α → Bool) (a : List α) (ha : a ≠ []) :
    _QuickSortPartition comparator 0 0 a.length a = .error (.outOfRange a.length) := by
  have hlen : 1 ≤ a.length := by
    cases a with
    | nil => exact absurd rfl ha
    | cons => simp
  have hret : retreat a.length (a.length / 2 / 2) = .ok (a.length - a.length / 2 / 2) :=
    retreat_of_le (by omega)
  by_cases hq : a.length / 2 / 2 = 0
  · have := _QuickSortPartition_choose_fault comparator a (0 + a.length / 2 / 2)
      (0 + a.length / 2) (a.length - a.length / 2 / 2) (by omega) (by omega) (by omega)
    simp only [_QuickSortPartition, distance_of_le (Nat.zero_le _), Nat.sub_zero, hret, this]
    simp [hq]
  · obtain ⟨p, hp, hp1⟩ := _QuickSortPartition_choose_spec comparator a (0 + a.length / 2 / 2)
      (0 + a.length / 2) (a.length - a.length / 2 / 2) (by omega) (by omega) (by omega)
    have hpn : p < a.length := by omega
    obtain ⟨a1, k, hscan, hlen1, hk⟩ :=
      _QuickSortPartition_scanLeft_ok comparator p (a.length + 1) 0 0 a (le_refl _)
        (Nat.zero_le _) hpn (by omega)
    obtain ⟨x, hx⟩ := exists_getElem? (show k < a1.length by omega)
    obtain ⟨y, hy⟩ := exists_getElem? (show p < a1.length by omega)
    have hne : a.length ≠ k := by omega
    have hd : deref ((a1.set k y).set p x) a.length = .error (.outOfRange a.length) :=
      deref_of_le (by simp; omega)
    simp only [_QuickSortPartition, distance_of_le (Nat.zero_le _), Nat.sub_zero, hret, hp, hscan,
      iter_swap_of_getElem? hx hy]
    simp [_QuickSortPartition.scanRight, hne, hd]

/-- `QuickSort` over a whole non-empty vector reads the position one past its end. -/
theorem QuickSort_past_end (comparator : α → α → Bool) (v : List α) (hv : v ≠ []) :
    sortVector comparator .QuickSort v = .error (.outOfRange v.length) := by
  have hlen : ¬ v.length = 0 := by
    cases v with
    | nil => exact absurd rfl hv
    | cons => simp
  simp [sortVector, sortRange, Run, QuickSort, _QuickSortImp, distance_of_le, hlen,
    _QuickSortPartition_past_end comparator v hv]

/-- `DefaultSort` over a whole vector of more than 200 elements reads the position one past
its end. -/
theorem DefaultSort_past_end (comparator : α → α → Bool) (v : List α) (hv : 200 < v.length) :
    sortVector comparator .Default v = .error (.outOfRange v.length) := by
  have hv0 : v ≠ [] := by
    intro h; subst h; simp at hv
  have h1 : ¬ v.length = 0 := by omega
  have h2 : ¬ v.length ≤ 200 := by omega
  simp [sortVector, sortRange, Run, DefaultSort, _DefaultSortImp, distance_of_le, h1, h2,
    _QuickSortPartition_past_end comparator v hv0]

/-! # Claims about the six selectors on a whole vector

`sortVector comparator algorithm v` is the call `Sort(v.begin(), v.end(), comparator,
algorithm)`; a result `.ok r` says that the call completes with the vector holding `r`. -/

/-- Claim C1, evaluated on the code.  The claim says that `Default` sorts every sequence of
more than 200 elements.  On the 201-element vector `[200, 199, ..., 0]` with
`std::greater` the call does not complete in defined behaviour: `DefaultSort` hands
`end` (not the last element) to `_DefaultSortImp`, whose partition step treats `right`
as inclusive and dereferences position 201, one past the end of the vector. -/
theorem Default_201_elements_reads_past_end :
    sortVector greater .Default (List.range 201).reverse = .error (.outOfRange 201) := by
  have h := DefaultSort_past_end greater (List.range 201).reverse (by simp)
  simpa using h

/-- Claim C2, evaluated on the code.  The claim says that `QuickSort` sorts every non-empty
sequence and turns `[1,2,3,4,9,5,6,7,8]` into `[1,...,9]`.  On that vector the call
dereferences position 9, one past the end (`QuickSort` hands `end` to `_QuickSortImp`,
which treats `right` as inclusive).  When the range is the first nine elements of a
ten-element vector, so that position 9 can be read, the element stored there is drawn
into the sort and the range does not keep its own elements. -/
theorem QuickSort_middle_anomaly_reads_past_end :
    sortVector greater .QuickSort [1, 2, 3, 4, 9, 5, 6, 7, 8] = .error (.outOfRange 9) ∧
    sortRange [1, 2, 3, 4, 9, 5, 6, 7, 8, 0] 0 9 greater .QuickSort =
      .ok [0, 1, 2, 3, 4, 5, 6, 7, 8, 9] :=
  ⟨rfl, rfl⟩

/-- Claim C3.  For every non-empty vector and every strict weak ordering, `Sort` with
selector `MergeSort` completes and every adjacent pair `(x, y)` of the result has
`comparator x y = false`; and `[9,8,7,6,5,4,3,2,1]` with `std::greater` yields
`[1,2,3,4,5,6,7,8,9]`. -/
theorem MergeSort_sorts (comparator : α → α → Bool) (hswo : StrictWeakOrdering comparator)
    (v : List α) (hv : v ≠ []) :
    (∃ r, sortVector comparator .MergeSort v = .ok r ∧ Ordered comparator r) ∧
    sortVector greater .MergeSort [9, 8, 7, 6, 5, 4, 3, 2, 1] =
      .ok [1, 2, 3, 4, 5, 6, 7, 8, 9] := by
  obtain ⟨r, hrun, _, hord⟩ := MergeSort_spec comparator v hv
  exact ⟨⟨r, hrun, hord hswo⟩, rfl⟩

theorem MergeSort_sorts_witness :
    (∃ r, sortVector greater .MergeSort [3, 1, 2, 1] = .ok r ∧ Ordered greater r) ∧
    sortVector greater .MergeSort [9, 8, 7, 6, 5, 4, 3, 2, 1] =
      .ok [1, 2, 3, 4, 5, 6, 7, 8, 9] :=
  MergeSort_sorts greater greater_strictWeakOrdering [3, 1, 2, 1] (by simp)

/-- Claim C4.  For every non-empty vector and every strict weak ordering, `Sort` with
selector `InsertionSort` completes and every adjacent pair `(x, y)` of the result has
`comparator x y = false`; and `[9,1,2,3,4,5,6,7,8]` with `std::greater` yields
`[1,2,3,4,5,6,7,8,9]`. -/
theorem InsertionSort_sorts (comparator : α → α → Bool)
    (hswo : StrictWeakOrdering comparator) (v : List α) (hv : v ≠ []) :
    (∃ r, sortVector comparator .InsertionSort v = .ok r ∧ Ordered comparator r) ∧
    sortVector greater .InsertionSort [9, 1, 2, 3, 4, 5, 6, 7, 8] =
      .ok [1, 2, 3, 4, 5, 6, 7, 8, 9] := by
  obtain ⟨r, hrun, _, hord⟩ := InsertionSort_spec comparator v hv
  exact ⟨⟨r, hrun, hord hswo⟩, rfl⟩

theorem InsertionSort_sorts_witness :
    (∃ r, sortVector greater .InsertionSort [3, 1, 2, 1] = .ok r ∧ Ordered greater r) ∧
    sortVector greater .InsertionSort [9, 1, 2, 3, 4, 5, 6, 7, 8] =
      .ok [1, 2, 3, 4, 5, 6, 7, 8, 9] :=
  InsertionSort_sorts greater greater_strictWeakOrdering [3, 1, 2, 1] (by simp)

/-- Claim C5.  For every non-empty vector and every strict weak ordering, `Sort` with
selector `BubbleSort` terminates and every adjacent pair `(x, y)` of the result has
`comparator x y = false`; and `[5,3,4,1,2]` with `std::greater` yields `[1,2,3,4,5]`. -/
theorem BubbleSort_sorts (comparator : α → α → Bool) (hswo : StrictWeakOrdering comparator)
    (v : List α) (hv : v ≠ []) :
    (∃ r, sortVector comparator .BubbleSort v = .ok r ∧ Ordered comparator r) ∧
    sortVector greater .BubbleSort [5, 3, 4, 1, 2] = .ok [1, 2, 3, 4, 5] := by
  obtain ⟨r, hrun, _, hord⟩ := BubbleSort_spec comparator v hv
  exact ⟨⟨r, hrun, hord hswo⟩, rfl⟩

theorem BubbleSort_sorts_witness :
    (∃ r, sortVector greater .BubbleSort [3, 1, 2, 1] = .ok r ∧ Ordered greater r) ∧
    sortVector greater .BubbleSort [5, 3, 4, 1, 2] = .ok [1, 2, 3, 4, 5] :=
  BubbleSort_sorts greater greater_strictWeakOrdering [3, 1, 2, 1] (by simp)

/-- Claim C6.  For every non-empty vector and every strict weak ordering, `Sort` with
selector `SelectionSort` completes and every adjacent pair `(x, y)` of the result has
`comparator x y = false`. -/
theorem SelectionSort_sorts (comparator : α → α → Bool)
    (hswo : StrictWeakOrdering comparator) (v : List α) (hv : v ≠ []) :
    ∃ r, sortVector comparator .SelectionSort v = .ok r ∧ Ordered comparator r := by
  obtain ⟨r, hrun, _, hord⟩ := SelectionSort_spec comparator v hv
  exact ⟨r, hrun, hord hswo⟩

theorem SelectionSort_sorts_witness :
    ∃ r, sortVector greater .SelectionSort [3, 1, 2, 1] = .ok r ∧ Ordered greater r :=
  SelectionSort_sorts greater greater_strictWeakOrdering [3, 1, 2, 1] (by simp)

/-- Claim C7.  For every non-empty vector and every comparator (a strict weak ordering or
not), `Sort` with selector `BubbleSort`, `SelectionSort`, `InsertionSort` or `MergeSort`
completes and the result is a permutation of the input. -/
theorem stable_selectors_permute (comparator : α → α → Bool) (v : List α) (hv : v ≠ []) :
    (∃ r, sortVector comparator .BubbleSort v = .ok r ∧ List.Perm r v) ∧
    (∃ r, sortVector comparator .SelectionSort v = .ok r ∧ List.Perm r v) ∧
    (∃ r, sortVector comparator .InsertionSort v = .ok r ∧ List.Perm r v) ∧
    (∃ r, sortVector comparator .MergeSort v = .ok r ∧ List.Perm r v) := by
  obtain ⟨r1, h1, p1, _⟩ := BubbleSort_spec comparator v hv
  obtain ⟨r2, h2, p2, _⟩ := SelectionSort_spec comparator v hv
  obtain ⟨r3, h3, p3, _⟩ := InsertionSort_spec comparator v hv
  obtain ⟨r4, h4, p4, _⟩ := MergeSort_spec comparator v hv
  exact ⟨⟨r1, h1, p1⟩, ⟨r2, h2, p2⟩, ⟨r3, h3, p3⟩, ⟨r4, h4, p4⟩⟩

theorem stable_selectors_permute_witness :
    (∃ r, sortVector (fun _ _ : Nat => true) .BubbleSort [1, 2, 3] = .ok r ∧
      List.Perm r [1, 2, 3]) ∧
    (∃ r, sortVector (fun _ _ : Nat => true) .SelectionSort [1, 2, 3] = .ok r ∧
      List.Perm r [1, 2, 3]) ∧
    (∃ r, sortVector (fun _ _ : Nat => true) .InsertionSort [1, 2, 3] = .ok r ∧
      List.Perm r [1, 2, 3]) ∧
    (∃ r, sortVector (fun _ _ : Nat => true) .MergeSort [1, 2, 3] = .ok r ∧
      List.Perm r [1, 2, 3]) :=
  stable_selectors_permute (fun _ _ => true) [1, 2, 3] (by simp)

/-- Claim C8, evaluated on the code.  The claim says that the result of `QuickSort` (and
of `Default`) is a permutation of the input.  On the vector `[2, 1]` the `QuickSort` call
dereferences position 2, one past the end, and has no defined result.  When the range is
the first two elements of the vector `[2, 1, 0]`, the call completes with `[0, 1, 2]`: the
range then holds `[0, 1]`, which is not a permutation of `[2, 1]` (the 2 has left the
range and the 0 has entered it).  `Default` on 201 equal elements dereferences position
201 in the same way. -/
theorem QuickSort_range_not_permuted :
    sortVector greater .QuickSort [2, 1] = .error (.outOfRange 2) ∧
    sortRange [2, 1, 0] 0 2 greater .QuickSort = .ok [0, 1, 2] ∧
    ¬ List.Perm [0, 1] [2, 1] ∧
    sortVector greater .Default (List.replicate 201 7) = .error (.outOfRange 201) := by
  refine ⟨rfl, rfl, by decide, ?_⟩
  have h := DefaultSort_past_end greater (List.replicate 201 7)
    (by rw [List.length_replicate]; omega)
  rw [List.length_replicate] at h
  exact h

/-- Claim C9, evaluated on the code.  The claim says that `MergeSort` is stable.  On the
two tagged values `(1, 0)`, `(1, 1)` with equal keys (the comparator looks at the key only)
the merge step takes the head of the right buffer first, so the output has `(1, 1)` before
`(1, 0)`: their input order is reversed. -/
theorem MergeSort_reverses_equal_keys :
    greaterKey (1, 0) (1, 1) = false ∧ greaterKey (1, 1) (1, 0) = false ∧
    sortVector greaterKey .MergeSort [(1, 0), (1, 1)] = .ok [(1, 1), (1, 0)] :=
  ⟨rfl, rfl, rfl⟩

/-- Claim C10, evaluated on the code.  The claim says that `SelectionSort` is stable.  On
`[(2, 0), (2, 1), (1, 2)]` (the comparator looks at the key only) the first outer
iteration swaps positions 0 and 2, which carries `(2, 0)` behind `(2, 1)`: the output is
`[(1, 2), (2, 1), (2, 0)]`. -/
theorem SelectionSort_reverses_equal_keys :
    greaterKey (2, 0) (2, 1) = false ∧ greaterKey (2, 1) (2, 0) = false ∧
    sortVector greaterKey .SelectionSort [(2, 0), (2, 1), (1, 2)] =
      .ok [(1, 2), (2, 1), (2, 0)] :=
  ⟨rfl, rfl, rfl⟩

/-! # Stability, sorted input and boundary sizes -/

/-! ## Stability of BubbleSort and InsertionSort -/

theorem getElem?_of_deref {a : List α} {i : Nat} {x : α} (h : deref a i = .ok x) :
    a[i]? = some x := by
  unfold deref at h
  cases hg : a[i]? with
  | none => rw [hg] at h; cases h
  | some v => rw [hg] at h; cases h; rfl

/-- Exchanging two neighbours that are not both selected by `P` does not change what
`filter P` keeps. -/
theorem filter_swap_adjacent (P : α → Bool) :
    ∀ (l : List α) (c : Nat) (x y : α), l[c]? = some x → l[c + 1]? = some y →
      (P x = false ∨ P y = false) →
      ((l.set c y).set (c + 1) x).filter P = l.filter P := by
  intro l
  induction l with
  | nil => intro c x y hx; simp at hx
  | cons h t ih =>
    intro c x y hx hy hP
    cases c with
    | zero =>
      cases t with
      | nil => simp at hy
      | cons h2 t2 =>
        simp at hx hy
        subst hx hy
        rcases hP with hP | hP
        · cases hy : P h2 <;> simp [List.filter_cons, hP, hy]
        · cases hx : P h <;> simp [List.filter_cons, hP, hx]
    | succ c =>
      simp at hx hy
      simp only [List.set_cons_succ, List.filter_cons]
      rw [ih c x y hx hy hP]

/-- Two values of which the first has to follow the second are not both equal-ranked with
a third value. -/
theorem not_both_equalRanked {comparator : α → α → Bool} (hswo : StrictWeakOrdering comparator)
    (z : α) {x y : α} (hxy : comparator x y = true) :
    equalRanked comparator z x = false ∨ equalRanked comparator z y = false := by
  by_contra hcon
  have h1 : equalRanked comparator z x = true := by
    cases h : equalRanked comparator z x with
    | true => rfl
    | false => exact absurd (Or.inl h) hcon
  have h2 : equalRanked comparator z y = true := by
    cases h : equalRanked comparator z y with
    | true => rfl
    | false => exact absurd (Or.inr h) hcon
  simp only [equalRanked, Bool.and_eq_true, Bool.not_eq_true'] at h1 h2
  have := (hswo.incomp_trans x z y h1.2 h1.1 h2.1 h2.2).1
  rw [hxy] at this
  cases this

/-- Whatever is kept by every exchange of two neighbours `x`, `y` with
`comparator x y = true` is kept by one pass of `BubbleSort`. -/
theorem BubbleSort_pass_invariant (comparator : α → α → Bool) (Inv : List α → Prop)
    (hstep : ∀ (l : List α) (c : Nat) (x y : α), Inv l → l[c]? = some x → l[c + 1]? = some y →
      comparator x y = true → Inv ((l.set c y).set (c + 1) x)) (e : Nat) :
    ∀ (fuel c : Nat) (a : List α) (sorted : Bool) (a' : List α) (s' : Bool),
      BubbleSort.pass comparator e fuel c (c + 1) a sorted = .ok (a', s') → Inv a → Inv a' := by
  intro fuel
  induction fuel with
  | zero => intro c a sorted a' s' h; simp [BubbleSort.pass] at h
  | succ fuel ih =>
    intro c a sorted a' s' h hinv
    by_cases hce : c + 1 = e
    · simp [BubbleSort.pass, hce] at h
      rw [← h.1]; exact hinv
    · cases hx : deref a c with
      | error err => simp [BubbleSort.pass, hce, hx] at h
      | ok x =>
        cases hy : deref a (c + 1) with
        | error err => simp [BubbleSort.pass, hce, hx, hy] at h
        | ok y =>
          have hx' := getElem?_of_deref hx
          have hy' := getElem?_of_deref hy
          cases hxy : comparator x y with
          | true =>
            simp only [BubbleSort.pass, hce, if_false, hx, hy, hxy, if_true,
              iter_swap_of_getElem? hx' hy'] at h
            exact ih (c + 1) _ false a' s' h (hstep a c x y hinv hx' hy' hxy)
          | false =>
            simp only [BubbleSort.pass, hce, if_false, hx, hy, hxy, Bool.false_eq_true] at h
            exact ih (c + 1) a sorted a' s' h hinv

/-- The same for the whole of `BubbleSort`. -/
theorem BubbleSort_loop_invariant (comparator : α → α → Bool) (Inv : List α → Prop)
    (hstep : ∀ (l : List α) (c : Nat) (x y : α), Inv l → l[c]? = some x → l[c + 1]? = some y →
      comparator x y = true → Inv ((l.set c y).set (c + 1) x)) (begin : Nat) :
    ∀ (fuel e : Nat) (a a' : List α),
      BubbleSort.loop comparator begin fuel e a = .ok a' → Inv a → Inv a' := by
  intro fuel
  induction fuel with
  | zero => intro e a a' h; simp [BubbleSort.loop] at h
  | succ fuel ih =>
    intro e a a' h hinv
    cases hp : BubbleSort.pass comparator e (a.length + 1) begin (begin + 1) a true with
    | error err => simp [BubbleSort.loop, hp] at h
    | ok res =>
      obtain ⟨a1, s⟩ := res
      have hinv1 := BubbleSort_pass_invariant comparator Inv hstep e _ _ _ _ _ _ hp hinv
      cases hr : retreat e with
      | error err => simp [BubbleSort.loop, hp, hr] at h
      | ok e1 =>
        cases s with
        | true =>
          simp [BubbleSort.loop, hp, hr] at h
          rw [← h]; exact hinv1
        | false =>
          simp only [BubbleSort.loop, hp, hr, Bool.false_eq_true, if_false] at h
          exact ih e1 a1 a' h hinv1

/-- Whatever is kept by every exchange of two neighbours `x`, `y` with
`comparator x y = true` is kept by the shifting loop of `InsertionSort`, read on the list
in which the vacated position holds the pivot value. -/
theorem InsertionSort_shift_invariant (comparator : α → α → Bool) (Inv : List α → Prop)
    (hstep : ∀ (l : List α) (c : Nat) (x y : α), Inv l → l[c]? = some x → l[c + 1]? = some y →
      comparator x y = true → Inv ((l.set c y).set (c + 1) x)) (begin : Nat) (pv : α) :
    ∀ (fuel c : Nat) (a a' : List α) (c' : Nat),
      InsertionSort.shift comparator begin pv fuel c c a = .ok (a', c') →
      Inv (a.set c pv) → Inv (a'.set c' pv) := by
  intro fuel
  induction fuel with
  | zero => intro c a a' c' h; simp [InsertionSort.shift] at h
  | succ fuel ih =>
    intro c a a' c' h hinv
    by_cases hc : c < 1
    · simp [InsertionSort.shift, retreat, hc] at h
    · have hc1 : 1 ≤ c := by omega
      cases hx : deref a (c - 1) with
      | error err => simp [InsertionSort.shift, retreat_one hc1, hx] at h
      | ok x =>
        have hx' := getElem?_of_deref hx
        cases hxp : comparator x pv with
        | false =>
          simp [InsertionSort.shift, retreat_one hc1, hx, hxp] at h
          rw [← h.1, ← h.2]; exact hinv
        | true =>
          by_cases hlen : c < a.length
          · have hVx : (a.set c pv)[c - 1]? = some x := by
              rw [List.getElem?_set]
              have : c ≠ c - 1 := by omega
              simp [this, hx']
            have hVc : (a.set c pv)[c - 1 + 1]? = some pv := by
              rw [Nat.sub_add_cancel hc1, List.getElem?_set]; simp [hlen]
            have hinv1 : Inv ((a.set c x).set (c - 1) pv) := by
              have := hstep (a.set c pv) (c - 1) x pv hinv hVx hVc hxp
              rw [Nat.sub_add_cancel hc1] at this
              rw [set_set_shift a c x pv hc1]; exact this
            by_cases hb : c - 1 = begin
            · subst hb
              simp [InsertionSort.shift, retreat_one hc1, hx, hxp, assign_of_lt x hlen] at h
              rw [← h.1, ← h.2]; exact hinv1
            · simp only [InsertionSort.shift, retreat_one hc1, hx, hxp, Bool.not_true,
                Bool.false_eq_true, if_false, assign_of_lt x hlen, ne_eq, hb, not_false_eq_true,
                if_true] at h
              exact ih (c - 1) (a.set c x) a' c' h hinv1
          · simp [InsertionSort.shift, retreat_one hc1, hx, hxp, assign, hlen] at h

/-- The same for the whole of `InsertionSort`. -/
theorem InsertionSort_loop_invariant (comparator : α → α → Bool) (Inv : List α → Prop)
    (hstep : ∀ (l : List α) (c : Nat) (x y : α), Inv l → l[c]? = some x → l[c + 1]? = some y →
      comparator x y = true → Inv ((l.set c y).set (c + 1) x)) (begin end_ : Nat) :
    ∀ (fuel p : Nat) (a a' : List α),
      InsertionSort.loop comparator begin end_ fuel p a = .ok a' → Inv a → Inv a' := by
  intro fuel
  induction fuel with
  | zero => intro p a a' h; simp [InsertionSort.loop] at h
  | succ fuel ih =>
    intro p a a' h hinv
    by_cases hpe : p = end_
    · simp [InsertionSort.loop, hpe] at h
      rw [← h]; exact hinv
    · cases hpv : deref a p with
      | error err => simp [InsertionSort.loop, hpe, hpv] at h
      | ok pv =>
        have hpv' := getElem?_of_deref hpv
        cases hs : InsertionSort.shift comparator begin pv (a.length + 1) p p a with
        | error err => simp [InsertionSort.loop, hpe, hpv, hs] at h
        | ok res =>
          obtain ⟨a1, c⟩ := res
          have hinv1 := InsertionSort_shift_invariant comparator Inv hstep begin pv _ _ _ _ _ hs
            (by rw [set_eq_self_of_getElem? hpv']; exact hinv)
          by_cases hc : c < a1.length
          · simp only [InsertionSort.loop, hpe, if_false, hpv, hs, assign_of_lt pv hc] at h
            exact ih (p + 1) _ a' h hinv1
          · simp [InsertionSort.loop, hpe, hpv, hs, assign, hc] at h

/-- From equal filters on every class of equal-ranked values to the order of each pair. -/
theorem sublist_pair_of_filter_eq {comparator : α → α → Bool}
    (hswo : StrictWeakOrdering comparator) {v r : List α}
    (h : ∀ z, r.filter (equalRanked comparator z) = v.filter (equalRanked comparator z))
    (a b : α) (hab : comparator a b = false) (hba : comparator b a = false)
    (hv : List.Sublist [a, b] v) : List.Sublist [a, b] r := by
  have h1 := hv.filter (equalRanked comparator a)
  have h2 : [a, b].filter (equalRanked comparator a) = [a, b] := by
    simp [List.filter_cons, equalRanked, hswo.irrefl a, hab, hba]
  rw [h2, ← h a] at h1
  exact h1.trans (List.filter_sublist _)

/-- Claim C11.  `Sort` with selector `InsertionSort` is stable: for every non-empty vector
and every strict weak ordering the call completes, the elements equal-ranked with any
value `z` appear in the output in their input order, and so whenever `a` precedes an
equal-ranked `b` in the input, `a` precedes `b` in the output. -/
theorem InsertionSort_stable (comparator : α → α → Bool)
    (hswo : StrictWeakOrdering comparator) (v : List α) (hv : v ≠ []) :
    ∃ r, sortVector comparator .InsertionSort v = .ok r ∧
      (∀ z, r.filter (equalRanked comparator z) = v.filter (equalRanked comparator z)) ∧
      (∀ a b, comparator a b = false → comparator b a = false →
        List.Sublist [a, b] v → List.Sublist [a, b] r) := by
  obtain ⟨r, hrun, _, _⟩ := InsertionSort_spec comparator v hv
  have hf : ∀ z, r.filter (equalRanked comparator z) = v.filter (equalRanked comparator z) := by
    intro z
    refine InsertionSort_loop_invariant comparator
      (fun l => l.filter (equalRanked comparator z) = v.filter (equalRanked comparator z))
      ?_ 0 v.length _ _ v r hrun rfl
    intro l c x y hl hx hy hxy
    rw [filter_swap_adjacent _ l c x y hx hy (not_both_equalRanked hswo z hxy)]
    exact hl
  exact ⟨r, hrun, hf, sublist_pair_of_filter_eq hswo hf⟩

theorem InsertionSort_stable_witness :
    ∃ r, sortVector greaterKey .InsertionSort [(2, 0), (1, 1), (2, 2), (1, 3)] = .ok r ∧
      (∀ z, r.filter (equalRanked greaterKey z) =
        [(2, 0), (1, 1), (2, 2), (1, 3)].filter (equalRanked greaterKey z)) ∧
      (∀ a b, greaterKey a b = false → greaterKey b a = false →
        List.Sublist [a, b] [(2, 0), (1, 1), (2, 2), (1, 3)] → List.Sublist [a, b] r) :=
  InsertionSort_stable greaterKey greaterKey_strictWeakOrdering
    [(2, 0), (1, 1), (2, 2), (1, 3)] (by simp)

/-- Claim C12.  `Sort` with selector `BubbleSort` is stable: for every non-empty vector and
every strict weak ordering the call completes, the elements equal-ranked with any value
`z` appear in the output in their input order, and so whenever `a` precedes an
equal-ranked `b` in the input, `a` precedes `b` in the output. -/
theorem BubbleSort_stable (comparator : α → α → Bool)
    (hswo : StrictWeakOrdering comparator) (v : List α) (hv : v ≠ []) :
    ∃ r, sortVector comparator .BubbleSort v = .ok r ∧
      (∀ z, r.filter (equalRanked comparator z) = v.filter (equalRanked comparator z)) ∧
      (∀ a b, comparator a b = false → comparator b a = false →
        List.Sublist [a, b] v → List.Sublist [a, b] r) := by
  obtain ⟨r, hrun, _, _⟩ := BubbleSort_spec comparator v hv
  have hf : ∀ z, r.filter (equalRanked comparator z) = v.filter (equalRanked comparator z) := by
    intro z
    refine BubbleSort_loop_invariant comparator
      (fun l => l.filter (equalRanked comparator z) = v.filter (equalRanked comparator z))
      ?_ 0 _ v.length v r hrun rfl
    intro l c x y hl hx hy hxy
    rw [filter_swap_adjacent _ l c x y hx hy (not_both_equalRanked hswo z hxy)]
    exact hl
  exact ⟨r, hrun, hf, sublist_pair_of_filter_eq hswo hf⟩

theorem BubbleSort_stable_witness :
    ∃ r, sortVector greaterKey .BubbleSort [(2, 0), (1, 1), (2, 2), (1, 3)] = .ok r ∧
      (∀ z, r.filter (equalRanked greaterKey z) =
        [(2, 0), (1, 1), (2, 2), (1, 3)].filter (equalRanked greaterKey z)) ∧
      (∀ a b, greaterKey a b = false → greaterKey b a = false →
        List.Sublist [a, b] [(2, 0), (1, 1), (2, 2), (1, 3)] → List.Sublist [a, b] r) :=
  BubbleSort_stable greaterKey greaterKey_strictWeakOrdering
    [(2, 0), (1, 1), (2, 2), (1, 3)] (by simp)

/-! ## Sorted input: BubbleSort, SelectionSort, InsertionSort -/

/-- Forgetting the count gives `BubbleSort.pass`. -/
theorem BubbleSort_passCount_erase (comparator : α → α → Bool) (e : Nat) :
    ∀ (fuel current next : Nat) (a : List α) (sorted : Bool) (swaps : Nat),
      (BubbleSort.passCount comparator e fuel current next a sorted swaps).map
          (fun r => (r.1, r.2.1)) =
        BubbleSort.pass comparator e fuel current next a sorted := by
  intro fuel
  induction fuel with
  | zero => intro current next a sorted swaps; rfl
  | succ fuel ih =>
    intro current next a sorted swaps
    by_cases hne : next = e
    · simp [BubbleSort.passCount, BubbleSort.pass, hne, Except.map]
    · cases hx : deref a current with
      | error err => simp [BubbleSort.passCount, BubbleSort.pass, hne, hx, Except.map]
      | ok x =>
        cases hy : deref a next with
        | error err => simp [BubbleSort.passCount, BubbleSort.pass, hne, hx, hy, Except.map]
        | ok y =>
          cases hxy : comparator x y with
          | true =>
            cases hsw : iter_swap a current next with
            | error err =>
              simp [BubbleSort.passCount, BubbleSort.pass, hne, hx, hy, hxy, hsw, Except.map]
            | ok a1 =>
              simp only [BubbleSort.passCount, BubbleSort.pass, hne, if_false, hx, hy, hxy,
                if_true, hsw]
              exact ih _ _ _ _ _
          | false =>
            simp only [BubbleSort.passCount, BubbleSort.pass, hne, if_false, hx, hy, hxy,
              Bool.false_eq_true]
            exact ih _ _ _ _ _

/-- Forgetting the count gives `BubbleSort.loop`. -/
theorem BubbleSort_loopCount_erase (comparator : α → α → Bool) (begin : Nat) :
    ∀ (fuel e : Nat) (a : List α) (swaps : Nat),
      (BubbleSort.loopCount comparator begin fuel e a swaps).map (fun r => r.1) =
        BubbleSort.loop comparator begin fuel e a := by
  intro fuel
  induction fuel with
  | zero => intro e a swaps; rfl
  | succ fuel ih =>
    intro e a swaps
    have hp := BubbleSort_passCount_erase comparator e (a.length + 1) begin (begin + 1) a true
      swaps
    cases hpc : BubbleSort.passCount comparator e (a.length + 1) begin (begin + 1) a true
        swaps with
    | error err =>
      rw [hpc] at hp
      simp [BubbleSort.loopCount, BubbleSort.loop, hpc, ← hp, Except.map]
    | ok res =>
      obtain ⟨a1, s, k⟩ := res
      rw [hpc] at hp
      cases hr : retreat e with
      | error err => simp [BubbleSort.loopCount, BubbleSort.loop, hpc, ← hp, hr, Except.map]
      | ok e1 =>
        cases s with
        | true => simp [BubbleSort.loopCount, BubbleSort.loop, hpc, ← hp, hr, Except.map]
        | false =>
          simp only [BubbleSort.loopCount, BubbleSort.loop, hpc, ← hp, hr, Except.map,
            Bool.false_eq_true, if_false]
          exact ih _ _ _

/-- Forgetting the count gives `SelectionSort.loop`. -/
theorem SelectionSort_loopCount_erase (comparator : α → α → Bool) (e last : Nat) :
    ∀ (fuel pivot : Nat) (a : List α) (swaps : Nat),
      (SelectionSort.loopCount comparator e last fuel pivot a swaps).map (fun r => r.1) =
        SelectionSort.loop comparator e last fuel pivot a := by
  intro fuel
  induction fuel with
  | zero => intro pivot a swaps; rfl
  | succ fuel ih =>
    intro pivot a swaps
    by_cases hpl : pivot = last
    · simp [SelectionSort.loopCount, SelectionSort.loop, hpl, Except.map]
    · cases hsc : SelectionSort.scan comparator e a (a.length + 1) (pivot + 1) pivot false with
      | error err => simp [SelectionSort.loopCount, SelectionSort.loop, hpl, hsc, Except.map]
      | ok res =>
        obtain ⟨m, f⟩ := res
        cases f with
        | true =>
          cases hsw : iter_swap a pivot m with
          | error err =>
            simp [SelectionSort.loopCount, SelectionSort.loop, hpl, hsc, hsw, Except.map]
          | ok a1 =>
            simp only [SelectionSort.loopCount, SelectionSort.loop, hpl, if_false, hsc, if_true,
              hsw]
            exact ih _ _ _
        | false =>
          simp only [SelectionSort.loopCount, SelectionSort.loop, hpl, if_false, hsc,
            Bool.false_eq_true]
          exact ih _ _ _

/-- The counted calls refine the plain ones. -/
theorem Count_erase (comparator : α → α → Bool) (begin end_ : Nat) (a : List α) :
    (BubbleSortCount comparator begin end_ a).map (fun r => r.1) =
      BubbleSort comparator begin end_ a ∧
    (SelectionSortCount comparator begin end_ a).map (fun r => r.1) =
      SelectionSort comparator begin end_ a := by
  constructor
  · exact BubbleSort_loopCount_erase comparator begin _ _ _ _
  · cases hr : retreat end_ with
    | error err => simp [SelectionSortCount, SelectionSort, hr, Except.map]
    | ok last =>
      simp only [SelectionSortCount, SelectionSort, hr]
      exact SelectionSort_loopCount_erase comparator end_ last _ _ _ _

/-- An ordered list in terms of positions. -/
theorem getElem?_of_ordered {comparator : α → α → Bool} (hswo : StrictWeakOrdering comparator)
    {v : List α} (h : Ordered comparator v) :
    ∀ (i j : Nat) (x y : α), i < j → v[i]? = some x → v[j]? = some y →
      comparator x y = false := by
  have hp : List.Pairwise (fun x y => comparator x y = false) v := by
    haveI : IsTrans α (fun x y => comparator x y = false) := ⟨fun _ _ _ => hswo.le_trans⟩
    exact List.chain'_iff_pairwise.mp h
  rw [List.pairwise_iff_getElem] at hp
  intro i j x y hij hx hy
  have hi := lt_length_of_getElem? hx
  have hj := lt_length_of_getElem? hy
  have := hp i j hi hj hij
  rw [List.getElem?_eq_getElem hi] at hx
  rw [List.getElem?_eq_getElem hj] at hy
  cases hx; cases hy
  exact this

/-- One pass over a part in which no neighbour has to follow its successor swaps
nothing. -/
theorem BubbleSort_passCount_ordered (comparator : α → α → Bool) (e : Nat) (a : List α)
    (hadj : ∀ (i : Nat) (x y : α), i + 1 < e → a[i]? = some x → a[i + 1]? = some y →
      comparator x y = false) (he : e ≤ a.length) :
    ∀ (fuel c : Nat) (sorted : Bool) (swaps : Nat), c + 1 ≤ e → e - c ≤ fuel →
      BubbleSort.passCount comparator e fuel c (c + 1) a sorted swaps = .ok (a, sorted, swaps) := by
  intro fuel
  induction fuel with
  | zero => intro c sorted swaps h1 h2; omega
  | succ fuel ih =>
    intro c sorted swaps h1 h2
    by_cases hce : c + 1 = e
    · simp [BubbleSort.passCount, hce]
    · obtain ⟨x, hx⟩ := exists_getElem? (show c < a.length by omega)
      obtain ⟨y, hy⟩ := exists_getElem? (show c + 1 < a.length by omega)
      have hxy := hadj c x y (by omega) hx hy
      simp only [BubbleSort.passCount, hce, if_false, deref_of_getElem? hx, deref_of_getElem? hy,
        hxy, Bool.false_eq_true]
      exact ih (c + 1) sorted swaps (by omega) (by omega)

/-- The scan from a pivot that need not follow any later element finds nothing. -/
theorem SelectionSort_scan_ordered (comparator : α → α → Bool) (e : Nat) (a : List α) (p : Nat)
    (hp : p < a.length)
    (hmin : ∀ (j : Nat) (x y : α), p < j → a[p]? = some x → a[j]? = some y →
      comparator x y = false) (he : e ≤ a.length) :
    ∀ (fuel value : Nat), p < value → value ≤ e → e - value < fuel →
      SelectionSort.scan comparator e a fuel value p false = .ok (p, false) := by
  intro fuel
  induction fuel with
  | zero => intro value h1 h2 h3; omega
  | succ fuel ih =>
    intro value h1 h2 h3
    by_cases hve : value = e
    · simp [SelectionSort.scan, hve]
    · obtain ⟨x, hx⟩ := exists_getElem? hp
      obtain ⟨y, hy⟩ := exists_getElem? (show value < a.length by omega)
      have hxy := hmin value x y h1 hx hy
      simp only [SelectionSort.scan, hve, if_false, deref_of_getElem? hx, deref_of_getElem? hy,
        hxy, Bool.false_eq_true]
      exact ih (value + 1) (by omega) (by omega) (by omega)

theorem SelectionSort_loopCount_ordered (comparator : α → α → Bool) (a : List α)
    (hord : ∀ (i j : Nat) (x y : α), i < j → a[i]? = some x → a[j]? = some y →
      comparator x y = false) :
    ∀ (fuel p : Nat) (swaps : Nat), p < a.length → a.length - p ≤ fuel →
      SelectionSort.loopCount comparator a.length (a.length - 1) fuel p a swaps =
        .ok (a, swaps) := by
  intro fuel
  induction fuel with
  | zero => intro p swaps h1 h2; omega
  | succ fuel ih =>
    intro p swaps h1 h2
    by_cases hpl : p = a.length - 1
    · simp [SelectionSort.loopCount, hpl]
    · have hscan := SelectionSort_scan_ordered comparator a.length a p h1
        (fun j x y hj hx hy => hord p j x y hj hx hy) (le_refl _) (a.length + 1) (p + 1)
        (by omega) (by omega) (by omega)
      simp only [SelectionSort.loopCount, hpl, if_false, hscan, Bool.false_eq_true]
      exact ih (p + 1) swaps (by omega) (by omega)

theorem InsertionSort_loop_ordered (comparator : α → α → Bool) (a : List α)
    (hadj : ∀ (i : Nat) (x y : α), a[i]? = some x → a[i + 1]? = some y →
      comparator x y = false) :
    ∀ (fuel p : Nat), 1 ≤ p → p ≤ a.length → a.length - p < fuel →
      InsertionSort.loop comparator 0 a.length fuel p a = .ok a := by
  intro fuel
  induction fuel with
  | zero => intro p h1 h2 h3; omega
  | succ fuel ih =>
    intro p h1 h2 h3
    by_cases hpn : p = a.length
    · simp [InsertionSort.loop, hpn]
    · obtain ⟨pv, hpv⟩ := exists_getElem? (show p < a.length by omega)
      obtain ⟨x, hx⟩ := exists_getElem? (show p - 1 < a.length by omega)
      have hxp : comparator x pv = false :=
        hadj (p - 1) x pv hx (by rw [Nat.sub_add_cancel h1]; exact hpv)
      have hshift : InsertionSort.shift comparator 0 pv (a.length + 1) p p a = .ok (a, p) := by
        simp [InsertionSort.shift, retreat_one h1, deref_of_getElem? hx, hxp]
      simp only [InsertionSort.loop, hpn, if_false, deref_of_getElem? hpv, hshift,
        assign_of_lt pv (show p < a.length by omega), set_eq_self_of_getElem? hpv]
      exact ih (p + 1) (by omega) (by omega) (by omega)

/-- Claim C16.  For every non-empty vector that is already ordered under a strict weak
ordering, `Sort` with selector `BubbleSort`, `SelectionSort` or `InsertionSort` completes
with the very same vector, and `BubbleSort` and `SelectionSort` make no call of
`std::iter_swap`. -/
theorem sorted_input_unchanged (comparator : α → α → Bool)
    (hswo : StrictWeakOrdering comparator) (v : List α) (hv : v ≠ [])
    (hord : Ordered comparator v) :
    sortVector comparator .BubbleSort v = .ok v ∧
    sortVector comparator .SelectionSort v = .ok v ∧
    sortVector comparator .InsertionSort v = .ok v ∧
    BubbleSortCount comparator 0 v.length v = .ok (v, 0) ∧
    SelectionSortCount comparator 0 v.length v = .ok (v, 0) := by
  have hlen : 1 ≤ v.length := by
    cases v with
    | nil => exact absurd rfl hv
    | cons => simp
  have hpair := getElem?_of_ordered hswo hord
  have hb : BubbleSortCount comparator 0 v.length v = .ok (v, 0) := by
    have hp := BubbleSort_passCount_ordered comparator v.length v
      (fun i x y _ hx hy => hpair i (i + 1) x y (by omega) hx hy) (le_refl _) (v.length + 1) 0
      true 0 (by omega) (by omega)
    simp [BubbleSortCount, BubbleSort.loopCount, hp, retreat_one hlen]
  have hs : SelectionSortCount comparator 0 v.length v = .ok (v, 0) := by
    have hl := SelectionSort_loopCount_ordered comparator v hpair (v.length + 1) 0 0 (by omega)
      (by omega)
    simp [SelectionSortCount, retreat_one hlen, hl]
  have hi : InsertionSort comparator 0 v.length v = .ok v :=
    InsertionSort_loop_ordered comparator v
      (fun i x y hx hy => hpair i (i + 1) x y (by omega) hx hy) (v.length + 1) 1 (le_refl _)
      hlen (by omega)
  have he := Count_erase comparator 0 v.length v
  rw [hb, hs] at he
  exact ⟨he.1.symm, he.2.symm, hi, hb, hs⟩

theorem sorted_input_unchanged_witness :
    sortVector greaterKey .BubbleSort [(1, 0), (2, 1), (2, 2), (3, 3)] =
      .ok [(1, 0), (2, 1), (2, 2), (3, 3)] ∧
    sortVector greaterKey .SelectionSort [(1, 0), (2, 1), (2, 2), (3, 3)] =
      .ok [(1, 0), (2, 1), (2, 2), (3, 3)] ∧
    sortVector greaterKey .InsertionSort [(1, 0), (2, 1), (2, 2), (3, 3)] =
      .ok [(1, 0), (2, 1), (2, 2), (3, 3)] ∧
    BubbleSortCount greaterKey 0 ([(1, 0), (2, 1), (2, 2), (3, 3)] : List (Nat × Nat)).length
      [(1, 0), (2, 1), (2, 2), (3, 3)] = .ok ([(1, 0), (2, 1), (2, 2), (3, 3)], 0) ∧
    SelectionSortCount greaterKey 0 ([(1, 0), (2, 1), (2, 2), (3, 3)] : List (Nat × Nat)).length
      [(1, 0), (2, 1), (2, 2), (3, 3)] = .ok ([(1, 0), (2, 1), (2, 2), (3, 3)], 0) :=
  sorted_input_unchanged greaterKey greaterKey_strictWeakOrdering
    [(1, 0), (2, 1), (2, 2), (3, 3)] (by simp) (by simp [Ordered, greaterKey])

/-! ## Ranges of at most one element; MergeSort on sorted input -/

/-- Claim C13, evaluated on the code.  The claim says that `Sort` over an empty range is a
no-op for all six selectors.  On the empty vector only `QuickSort` returns (its recursion
guard `left_distance >= right_distance` holds); `BubbleSort` dereferences position 0,
`InsertionSort` and `Default` dereference position 1, and `SelectionSort` and `MergeSort`
move `end` before the first position.  On the empty range at the front of the vector
`[2, 1]` `BubbleSort` and `InsertionSort` run over the elements behind the range until they
leave the vector at position 2. -/
theorem empty_range_is_not_a_no_op :
    sortVector greater .QuickSort [] = .ok [] ∧
    sortVector greater .BubbleSort [] = .error (.outOfRange 0) ∧
    sortVector greater .InsertionSort [] = .error (.outOfRange 1) ∧
    sortVector greater .Default [] = .error (.outOfRange 1) ∧
    sortVector greater .SelectionSort [] = .error .beforeStorage ∧
    sortVector greater .MergeSort [] = .error .beforeStorage ∧
    sortRange [2, 1] 0 0 greater .BubbleSort = .error (.outOfRange 2) ∧
    sortRange [2, 1] 0 0 greater .InsertionSort = .error (.outOfRange 2) :=
  ⟨rfl, rfl, rfl, rfl, rfl, rfl, rfl, rfl⟩

/-- Claim C14, evaluated on the code.  The claim says that `Sort` over a single-element
range is a no-op for all six selectors.  It is one for five of them, but `QuickSort` on the
vector `[5]` dereferences position 1, one past the end; and on the one-element range at
position 1 of the vector `[3, 5, 1]` it exchanges the element with the one behind the
range. -/
theorem QuickSort_single_element_is_not_a_no_op :
    sortVector greater .QuickSort [5] = .error (.outOfRange 1) ∧
    sortRange [3, 5, 1] 1 2 greater .QuickSort = .ok [3, 1, 5] ∧
    sortVector greater .BubbleSort [5] = .ok [5] ∧
    sortVector greater .SelectionSort [5] = .ok [5] ∧
    sortVector greater .InsertionSort [5] = .ok [5] ∧
    sortVector greater .MergeSort [5] = .ok [5] ∧
    sortVector greater .Default [5] = .ok [5] :=
  ⟨rfl, rfl, rfl, rfl, rfl, rfl, rfl⟩

/-- Claim C17, evaluated on the code.  The claim says that `MergeSort` leaves an already
sorted sequence as it is, tagged duplicates included.  The vector
`[(1, 0), (2, 1), (2, 2), (3, 3)]` is ordered by key, and `MergeSort` returns
`[(1, 0), (2, 2), (2, 1), (3, 3)]`: the two elements with key 2 have changed places. -/
theorem MergeSort_changes_sorted_input :
    Ordered greaterKey [(1, 0), (2, 1), (2, 2), (3, 3)] ∧
    sortVector greaterKey .MergeSort [(1, 0), (2, 1), (2, 2), (3, 3)] =
      .ok [(1, 0), (2, 2), (2, 1), (3, 3)] := by
  refine ⟨?_, rfl⟩
  simp [Ordered, greaterKey]

/-! # The hybrid strategy and the partition step -/

/-- When the range has at most 200 elements `DefaultSort` is `InsertionSort` on the same
range, whatever the storage and the comparator. -/
theorem DefaultSort_small (comparator : α → α → Bool) (m_Begin m_End begin end_ : Nat)
    (a : List α) (h : distance begin end_ ≤ 200) :
    DefaultSort comparator m_Begin m_End begin end_ a = InsertionSort comparator begin end_ a := by
  simp [DefaultSort, h]

/-- Claim C15.  For every vector of 1 to 200 elements and every comparator, `Sort` with
selector `Default` is the very call `InsertionSort(begin, end, comparator)` (the
partitioning branch `_DefaultSortImp` is not entered), it completes, and its result is the
result of `Sort` with selector `InsertionSort`. -/
theorem Default_small_is_InsertionSort (comparator : α → α → Bool) (v : List α)
    (h1 : 1 ≤ v.length) (h2 : v.length ≤ 200) :
    DefaultSort comparator 0 v.length 0 v.length v = InsertionSort comparator 0 v.length v ∧
    sortVector comparator .Default v = sortVector comparator .InsertionSort v ∧
    ∃ r, sortVector comparator .Default v = .ok r := by
  have hd : distance 0 v.length ≤ 200 := by
    rw [distance_of_le (Nat.zero_le _)]; omega
  have hv : v ≠ [] := by
    intro h; subst h; simp at h1
  have e := DefaultSort_small comparator 0 v.length 0 v.length v hd
  obtain ⟨r, hr, _, _⟩ := InsertionSort_spec comparator v hv
  refine ⟨e, ?_, r, ?_⟩
  · simp only [sortVector, sortRange, Run, e]
  · simp only [sortVector, sortRange, Run, e, hr]

theorem Default_small_is_InsertionSort_witness :
    DefaultSort greater 0 ([3, 1, 2] : List Nat).length 0 ([3, 1, 2] : List Nat).length
        [3, 1, 2] =
      InsertionSort greater 0 ([3, 1, 2] : List Nat).length [3, 1, 2] ∧
    sortVector greater .Default [3, 1, 2] = sortVector greater .InsertionSort [3, 1, 2] ∧
    ∃ r, sortVector greater .Default [3, 1, 2] = .ok r :=
  Default_small_is_InsertionSort greater [3, 1, 2] (by decide) (by decide)

/-- Claim C19.  For a strict weak ordering and candidates `x` (left quarter), `m` (middle)
and `b` (right quarter) inside the storage, the nested comparisons return the position of
one of the three, and the value there is a median: one of the other two candidates need
not follow it and it need not follow the remaining one. -/
theorem choose_is_median (comparator : α → α → Bool) (hswo : StrictWeakOrdering comparator)
    (a : List α) (lq pv rq : Nat) (x m b : α)
    (hx : a[lq]? = some x) (hm : a[pv]? = some m) (hb : a[rq]? = some b) :
    ∃ p c y z, _QuickSortPartition.choose comparator a lq pv rq = .ok p ∧ a[p]? = some c ∧
      ((p = lq ∧ c = x ∧ ((y = m ∧ z = b) ∨ (y = b ∧ z = m))) ∨
       (p = pv ∧ c = m ∧ ((y = x ∧ z = b) ∨ (y = b ∧ z = x))) ∨
       (p = rq ∧ c = b ∧ ((y = x ∧ z = m) ∨ (y = m ∧ z = x)))) ∧
      comparator y c = false ∧ comparator c z = false := by
  simp only [_QuickSortPartition.choose, deref_of_getElem? hx, deref_of_getElem? hm,
    deref_of_getElem? hb]
  cases h1 : comparator x m with
  | true =>
    cases h2 : comparator b m with
    | true =>
      cases h3 : comparator x b with
      | true =>
        exact ⟨rq, b, m, x, by simp, hb, Or.inr (Or.inr ⟨rfl, rfl, Or.inr ⟨rfl, rfl⟩⟩),
          hswo.asymm h2, hswo.asymm h3⟩
      | false =>
        exact ⟨lq, x, m, b, by simp, hx, Or.inl ⟨rfl, rfl, Or.inl ⟨rfl, rfl⟩⟩,
          hswo.asymm h1, h3⟩
    | false =>
      exact ⟨pv, m, b, x, by simp, hm, Or.inr (Or.inl ⟨rfl, rfl, Or.inr ⟨rfl, rfl⟩⟩),
        h2, hswo.asymm h1⟩
  | false =>
    cases h2 : comparator m b with
    | true =>
      cases h3 : comparator b x with
      | true =>
        exact ⟨rq, b, x, m, by simp, hb, Or.inr (Or.inr ⟨rfl, rfl, Or.inl ⟨rfl, rfl⟩⟩),
          hswo.asymm h3, hswo.asymm h2⟩
      | false =>
        exact ⟨lq, x, b, m, by simp, hx, Or.inl ⟨rfl, rfl, Or.inr ⟨rfl, rfl⟩⟩, h3, h1⟩
    | false =>
      exact ⟨pv, m, x, b, by simp, hm, Or.inr (Or.inl ⟨rfl, rfl, Or.inl ⟨rfl, rfl⟩⟩), h1, h2⟩

theorem choose_is_median_witness :
    ∃ p c y z, _QuickSortPartition.choose greater [7, 3, 9, 4, 5] 1 2 3 = .ok p ∧
      [7, 3, 9, 4, 5][p]? = some c ∧
      ((p = 1 ∧ c = 3 ∧ ((y = 9 ∧ z = 4) ∨ (y = 4 ∧ z = 9))) ∨
       (p = 2 ∧ c = 9 ∧ ((y = 3 ∧ z = 4) ∨ (y = 4 ∧ z = 3))) ∨
       (p = 3 ∧ c = 4 ∧ ((y = 3 ∧ z = 9) ∨ (y = 9 ∧ z = 3)))) ∧
      greater y c = false ∧ greater c z = false :=
  choose_is_median greater greater_strictWeakOrdering [7, 3, 9, 4, 5] 1 2 3 3 9 4 rfl rfl rfl

/-- Claim C20, evaluated on the code.  The claim says that the three candidates are read
at `left + q`, `left + h` and `right - q`, inside `[left, right]`.  The code reads the
middle candidate at `m_Begin + h`.  For `m_Begin = 0`, `left = 2`, `right = 3` (so `h = 0`)
that is position 0, outside `[2, 3]`: two storages that agree on `[2, 3]` and differ at
position 0 give different outcomes, and with `[5, 0, 5, 6]` the element at position 0
becomes the pivot, so that the first scan, which starts at `left`, never meets the pivot
position and leaves the storage at position 4. -/
theorem middle_candidate_outside_range :
    _QuickSortPartition greater 0 2 3 [0, 0, 5, 6] = .ok ([0, 0, 5, 6], 2) ∧
    _QuickSortPartition greater 0 2 3 [5, 0, 5, 6] = .error (.outOfRange 4) ∧
    _QuickSortPartition.choose greater [5, 0, 5, 6] 2 0 3 = .ok 0 :=
  ⟨rfl, rfl, rfl⟩

/-! ## The partition step -/

/-- A first scan that starts behind the pivot position never returns. -/
theorem _QuickSortPartition_scanLeft_runs_off (comparator : α → α → Bool) (pv : Nat) :
    ∀ (fuel left pivot_index : Nat) (a : List α), pv < left →
      ∃ e, _QuickSortPartition.scanLeft comparator pv fuel left pivot_index a = .error e := by
  intro fuel
  induction fuel with
  | zero => intro left pivot_index a _; exact ⟨_, rfl⟩
  | succ fuel ih =>
    intro left pivot_index a h
    have hne : left ≠ pv := by omega
    cases h1 : deref a pv with
    | error err => exact ⟨err, by simp [_QuickSortPartition.scanLeft, hne, h1]⟩
    | ok V =>
      cases h2 : deref a left with
      | error err => exact ⟨err, by simp [_QuickSortPartition.scanLeft, hne, h1, h2]⟩
      | ok x =>
        cases hc : comparator V x with
        | true =>
          cases h3 : iter_swap a left pivot_index with
          | error err =>
            exact ⟨err, by simp [_QuickSortPartition.scanLeft, hne, h1, h2, hc, h3]⟩
          | ok a1 =>
            obtain ⟨e, he⟩ := ih (left + 1) (pivot_index + 1) a1 (by omega)
            exact ⟨e, by simp [_QuickSortPartition.scanLeft, hne, h1, h2, hc, h3, he]⟩
        | false =>
          obtain ⟨e, he⟩ := ih (left + 1) pivot_index a (by omega)
          exact ⟨e, by simp [_QuickSortPartition.scanLeft, hne, h1, h2, hc, he]⟩

/-- The first scan: the elements that the pivot value `V` has to follow are gathered in
`[left0, k)`, the others examined end up in `[k, pv)`; positions outside `[left0, pv)` are
not written. -/
theorem _QuickSortPartition_scanLeft_spec (comparator : α → α → Bool) (left0 pv : Nat) (V : α) :
    ∀ (fuel l pivot_index : Nat) (a : List α), left0 ≤ pivot_index → pivot_index ≤ l →
      l ≤ pv → pv < a.length → pv - l < fuel → a[pv]? = some V →
      (∀ (i : Nat) (e : α), left0 ≤ i → i < pivot_index → a[i]? = some e →
        comparator V e = true) →
      (∀ (i : Nat) (e : α), pivot_index ≤ i → i < l → a[i]? = some e →
        comparator V e = false) →
      ∃ a' k, _QuickSortPartition.scanLeft comparator pv fuel l pivot_index a = .ok (a', k) ∧
        a'.length = a.length ∧ List.Perm a' a ∧ left0 ≤ k ∧ k ≤ pv ∧ a'[pv]? = some V ∧
        (∀ (i : Nat), i < left0 ∨ pv < i → a'[i]? = a[i]?) ∧
        (∀ (i : Nat) (e : α), left0 ≤ i → i < k → a'[i]? = some e → comparator V e = true) ∧
        (∀ (i : Nat) (e : α), k ≤ i → i < pv → a'[i]? = some e → comparator V e = false) := by
  intro fuel
  induction fuel with
  | zero => intro l pivot_index a h1 h2 h3 h4 h5; omega
  | succ fuel ih =>
    intro l pivot_index a h1 h2 h3 h4 h5 hV hlow hhigh
    by_cases hlp : l = pv
    · subst hlp
      exact ⟨a, pivot_index, by simp [_QuickSortPartition.scanLeft], rfl, List.Perm.refl _, h1, h2,
        hV, fun _ _ => rfl, hlow, hhigh⟩
    · obtain ⟨x, hx⟩ := exists_getElem? (show l < a.length by omega)
      obtain ⟨y, hy⟩ := exists_getElem? (show pivot_index < a.length by omega)
      cases hc : comparator V x with
      | true =>
        have hget := getElem?_set_set hx hy
        obtain ⟨a', k, hrun, hlen, hperm, hk1, hk2, hV', hF, hL, hH⟩ :=
          ih (l + 1) (pivot_index + 1) ((a.set l y).set pivot_index x) (by omega) (by omega)
            (by omega) (by simpa using h4) (by omega)
            (by
              rw [hget]
              have e1 : pv ≠ pivot_index := by omega
              have e2 : pv ≠ l := by omega
              simp [e1, e2, hV])
            (by
              intro i e hi1 hi2 he
              rw [hget] at he
              by_cases hip : i = pivot_index
              · simp [hip] at he
                subst he; exact hc
              · have hil : i ≠ l := by omega
                simp [hip, hil] at he
                exact hlow i e hi1 (by omega) he)
            (by
              intro i e hi1 hi2 he
              rw [hget] at he
              have hip : i ≠ pivot_index := by omega
              by_cases hil : i = l
              · subst hil
                simp [hip] at he
                subst he
                exact hhigh pivot_index y (le_refl _) (by omega) hy
              · simp [hip, hil] at he
                exact hhigh i e (by omega) (by omega) he)
        refine ⟨a', k, ?_, by simpa using hlen, hperm.trans (perm_set_set hx hy), hk1, hk2, hV',
          ?_, hL, hH⟩
        · simp [_QuickSortPartition.scanLeft, hlp, deref_of_getElem? hV, deref_of_getElem? hx, hc,
            iter_swap_of_getElem? hx hy, hrun]
        · intro i hi
          rw [hF i hi, hget]
          have e1 : i ≠ pivot_index := by omega
          have e2 : i ≠ l := by omega
          simp [e1, e2]
      | false =>
        obtain ⟨a', k, hrun, hlen, hperm, hk1, hk2, hV', hF, hL, hH⟩ :=
          ih (l + 1) pivot_index a h1 (by omega) (by omega) h4 (by omega) hV hlow
            (by
              intro i e hi1 hi2 he
              by_cases hil : i = l
              · subst hil
                rw [hx] at he; cases he
                exact hc
              · exact hhigh i e hi1 (by omega) he)
        refine ⟨a', k, ?_, hlen, hperm, hk1, hk2, hV', hF, hL, hH⟩
        simp [_QuickSortPartition.scanLeft, hlp, deref_of_getElem? hV, deref_of_getElem? hx, hc,
          hrun]

/-- The second scan: the elements that have to follow the pivot value `V` are gathered in
`(k2, right0]`, the others examined end up in `(k, k2]`; positions outside `(k, right0]`
are not written. -/
theorem _QuickSortPartition_scanRight_spec (comparator : α → α → Bool) (k right0 : Nat) (V : α) :
    ∀ (fuel r pivot_index : Nat) (a : List α), k ≤ r → r ≤ pivot_index →
      pivot_index ≤ right0 → right0 < a.length → r - k < fuel → a[k]? = some V →
      (∀ (i : Nat) (e : α), pivot_index < i → i ≤ right0 → a[i]? = some e →
        comparator e V = true) →
      (∀ (i : Nat) (e : α), r < i → i ≤ pivot_index → a[i]? = some e →
        comparator e V = false) →
      ∃ a' k2, _QuickSortPartition.scanRight comparator k fuel r pivot_index a = .ok (a', k2) ∧
        a'.length = a.length ∧ List.Perm a' a ∧ k ≤ k2 ∧ k2 ≤ right0 ∧ a'[k]? = some V ∧
        (∀ (i : Nat), i < k ∨ right0 < i → a'[i]? = a[i]?) ∧
        (∀ (i : Nat) (e : α), k2 < i → i ≤ right0 → a'[i]? = some e → comparator e V = true) ∧
        (∀ (i : Nat) (e : α), k < i → i ≤ k2 → a'[i]? = some e → comparator e V = false) := by
  intro fuel
  induction fuel with
  | zero => intro r pivot_index a h1 h2 h3 h4 h5; omega
  | succ fuel ih =>
    intro r pivot_index a h1 h2 h3 h4 h5 hV hhigh hlow
    by_cases hrk : r = k
    · subst hrk
      exact ⟨a, pivot_index, by simp [_QuickSortPartition.scanRight], rfl, List.Perm.refl _, h2, h3,
        hV, fun _ _ => rfl, hhigh, hlow⟩
    · obtain ⟨x, hx⟩ := exists_getElem? (show r < a.length by omega)
      obtain ⟨y, hy⟩ := exists_getElem? (show pivot_index < a.length by omega)
      have hr1 : 1 ≤ r := by omega
      have hp1 : 1 ≤ pivot_index := by omega
      cases hc : comparator x V with
      | true =>
        have hget := getElem?_set_set hx hy
        obtain ⟨a', k2, hrun, hlen, hperm, hk1, hk2, hV', hF, hH, hL⟩ :=
          ih (r - 1) (pivot_index - 1) ((a.set r y).set pivot_index x) (by omega) (by omega)
            (by omega) (by simpa using h4) (by omega)
            (by
              rw [hget]
              have e1 : k ≠ pivot_index := by omega
              have e2 : k ≠ r := by omega
              simp [e1, e2, hV])
            (by
              intro i e hi1 hi2 he
              rw [hget] at he
              by_cases hip : i = pivot_index
              · simp [hip] at he
                subst he; exact hc
              · have hil : i ≠ r := by omega
                simp [hip, hil] at he
                exact hhigh i e (by omega) hi2 he)
            (by
              intro i e hi1 hi2 he
              rw [hget] at he
              have hip : i ≠ pivot_index := by omega
              by_cases hil : i = r
              · subst hil
                simp [hip] at he
                subst he
                exact hlow pivot_index y (by omega) (le_refl _) hy
              · simp [hip, hil] at he
                exact hlow i e (by omega) (by omega) he)
        refine ⟨a', k2, ?_, by simpa using hlen, hperm.trans (perm_set_set hx hy), hk1,
          by omega, hV', ?_, hH, hL⟩
        · simp [_QuickSortPartition.scanRight, hrk, deref_of_getElem? hV, deref_of_getElem? hx,
            hc, iter_swap_of_getElem? hx hy, retreat_one hr1, retreat_one hp1, hrun]
        · intro i hi
          rw [hF i hi, hget]
          have e1 : i ≠ pivot_index := by omega
          have e2 : i ≠ r := by omega
          simp [e1, e2]
      | false =>
        obtain ⟨a', k2, hrun, hlen, hperm, hk1, hk2, hV', hF, hH, hL⟩ :=
          ih (r - 1) pivot_index a (by omega) (by omega) h3 h4 (by omega) hV hhigh
            (by
              intro i e hi1 hi2 he
              by_cases hil : i = r
              · subst hil
                rw [hx] at he; cases he
                exact hc
              · exact hlow i e (by omega) hi2 he)
        refine ⟨a', k2, ?_, hlen, hperm, hk1, hk2, hV', hF, hH, hL⟩
        simp [_QuickSortPartition.scanRight, hrk, deref_of_getElem? hV, deref_of_getElem? hx, hc,
          retreat_one hr1, hrun]

/-- The partition step once the pivot position `pv0` has been chosen inside
`[left, right]`: it returns, permutes `[left, right]` only, and leaves the pivot value `V`
at the returned position `p` with no element of `[left, p)` having to follow `V` and every
element of `(p, right]` having to follow `V`. -/
theorem _QuickSortPartition_of_pivot (comparator : α → α → Bool)
    (hswo : StrictWeakOrdering comparator) (m_Begin left right pv0 : Nat) (a : List α)
    (h2 : left ≤ right) (h3 : right < a.length)
    (hch : _QuickSortPartition.choose comparator a (left + (right - left) / 2 / 2)
      (m_Begin + (right - left) / 2) (right - (right - left) / 2 / 2) = .ok pv0)
    (hp1 : left ≤ pv0) (hp2 : pv0 ≤ right) :
    ∃ a' p V, _QuickSortPartition comparator m_Begin left right a = .ok (a', p) ∧
      a'.length = a.length ∧ List.Perm a' a ∧ left ≤ p ∧ p ≤ right ∧
      a'[p]? = some V ∧ a[pv0]? = some V ∧
      (∀ (i : Nat), i < left ∨ right < i → a'[i]? = a[i]?) ∧
      (∀ (i : Nat) (e : α), left ≤ i → i < p → a'[i]? = some e → comparator e V = false) ∧
      (∀ (i : Nat) (e : α), p < i → i ≤ right → a'[i]? = some e → comparator e V = true) := by
  obtain ⟨V, hV⟩ := exists_getElem? (show pv0 < a.length by omega)
  -- first scan
  obtain ⟨a1, k, hs1, hlen1, hperm1, hk1, hk2, hV1, hF1, hL1, hH1⟩ :=
    _QuickSortPartition_scanLeft_spec comparator left pv0 V (a.length + 1) left left a
      (le_refl _) (le_refl _) hp1 (by omega) (by omega) hV
      (by intro i e hi1 hi2; omega) (by intro i e hi1 hi2; omega)
  -- the pivot is put at `k`
  obtain ⟨w, hw⟩ := exists_getElem? (show k < a1.length by omega)
  have hsw1 := iter_swap_of_getElem? hw hV1
  have hget2 := getElem?_set_set hw hV1
  have hperm2 := perm_set_set hw hV1
  generalize ha2 : (a1.set k V).set pv0 w = a2 at hsw1 hget2 hperm2
  have hlen2 : a2.length = a.length := by rw [← ha2]; simpa using hlen1
  have hV2 : a2[k]? = some V := by
    rw [hget2]
    by_cases hkp : k = pv0
    · subst hkp
      rw [hw] at hV1
      simp [hV1]
    · simp [hkp]
  -- second scan
  obtain ⟨a3, k2, hs2, hlen3, hperm3, hk3, hk4, hV3, hF3, hH3, hL3⟩ :=
    _QuickSortPartition_scanRight_spec comparator k right V (a.length + 1) right right a2
      (by omega) (le_refl _) (le_refl _) (by omega) (by omega) hV2
      (by intro i e hi1 hi2; omega) (by intro i e hi1 hi2; omega)
  -- the pivot is put at `k2`
  obtain ⟨z, hz⟩ := exists_getElem? (show k2 < a3.length by omega)
  have hsw2 := iter_swap_of_getElem? hz hV3
  have hget4 := getElem?_set_set hz hV3
  have hperm4 := perm_set_set hz hV3
  generalize ha4 : (a3.set k2 V).set k z = a4 at hsw2 hget4 hperm4
  have hlen4 : a4.length = a.length := by rw [← ha4]; simp; omega
  refine ⟨a4, k2, V, ?_, hlen4, ((hperm4.trans hperm3).trans hperm2).trans hperm1, by omega, hk4,
    ?_, hV, ?_, ?_, ?_⟩
  · simp only [_QuickSortPartition, distance_of_le h2,
      retreat_of_le (show (right - left) / 2 / 2 ≤ right by omega), hch, hs1, hsw1, hs2, hsw2]
  · rw [hget4]
    by_cases hkk : k2 = k
    · subst hkk
      rw [hz] at hV3
      simp [hV3]
    · simp [hkk]
  · intro i hi
    rw [hget4]
    have e1 : i ≠ k := by omega
    have e2 : i ≠ k2 := by omega
    simp only [e1, e2, if_false]
    rw [hF3 i (by omega), hget2]
    have e3 : i ≠ pv0 := by omega
    simp only [e3, e1, if_false]
    exact hF1 i (by omega)
  · intro i e hi1 hi2 he
    rw [hget4] at he
    by_cases hik : i = k
    · subst hik
      simp at he
      subst he
      exact hL3 k2 z (by omega) (le_refl _) hz
    · by_cases hik2 : i = k2
      · omega
      · simp only [hik, hik2, if_false] at he
        by_cases hlt : i < k
        · rw [hF3 i (Or.inl hlt), hget2] at he
          have e3 : i ≠ pv0 := by omega
          simp only [e3, hik, if_false] at he
          exact hswo.asymm (hL1 i e hi1 hlt he)
        · exact hL3 i e (by omega) (by omega) he
  · intro i e hi1 hi2 he
    rw [hget4] at he
    have e1 : i ≠ k := by omega
    have e2 : i ≠ k2 := by omega
    simp only [e1, e2, if_false] at he
    exact hH3 i e hi1 hi2 he

/-- Claim C18 as stated, refuted on the code.  On `[1, 2, 3]` with `std::greater` and
`[left, right] = [0, 2]` the partition step returns position 1 holding the pivot value 2.
The element 1 left of it has `comparator(2, 1) = true` and the element 3 right of it has
`comparator(3, 2) = true`, where the claim says `false` in both places. -/
theorem partition_claim_counterexample :
    _QuickSortPartition greater 0 0 2 [1, 2, 3] = .ok ([1, 2, 3], 1) ∧
    ¬ (∀ (i : Nat) (e : Nat), 0 ≤ i → i < 1 → [1, 2, 3][i]? = some e → greater 2 e = false) ∧
    ¬ (∀ (i : Nat) (e : Nat), 1 < i → i ≤ 2 → [1, 2, 3][i]? = some e → greater e 2 = false) := by
  refine ⟨rfl, ?_, ?_⟩
  · intro h
    have := h 0 1 (le_refl _) (by decide) rfl
    simp [greater] at this
  · intro h
    have := h 2 3 (by decide) (le_refl _) rfl
    simp [greater] at this

/-- Claim C18, amended: the arguments of the comparator are the other way round.  Whenever
`_QuickSortPartition` is called on an inclusive sub-range `[left, right]` of valid
positions of the sorted range (`m_Begin ≤ left ≤ right`) with a strict weak ordering and
returns position `p`, then `p` lies in `[left, right]` and, with `v` the value at `p`,
every element at a position in `[left, p)` has `comparator(element, v) = false` and every
element at a position in `(p, right]` has `comparator(v, element) = false`. -/
theorem _QuickSortPartition_partitions (comparator : α → α → Bool)
    (hswo : StrictWeakOrdering comparator) (m_Begin left right : Nat) (a a' : List α) (p : Nat)
    (h1 : m_Begin ≤ left) (h2 : left ≤ right) (h3 : right < a.length)
    (hrun : _QuickSortPartition comparator m_Begin left right a = .ok (a', p)) :
    left ≤ p ∧ p ≤ right ∧ ∃ v, a'[p]? = some v ∧
      (∀ (i : Nat) (e : α), left ≤ i → i < p → a'[i]? = some e → comparator e v = false) ∧
      (∀ (i : Nat) (e : α), p < i → i ≤ right → a'[i]? = some e → comparator v e = false) := by
  obtain ⟨pv0, hch, hcases⟩ := _QuickSortPartition_choose_spec comparator a
    (left + (right - left) / 2 / 2) (m_Begin + (right - left) / 2)
    (right - (right - left) / 2 / 2) (by omega) (by omega) (by omega)
  by_cases hlt : pv0 < left
  · obtain ⟨e, he⟩ := _QuickSortPartition_scanLeft_runs_off comparator pv0 (a.length + 1) left
      left a hlt
    simp [_QuickSortPartition, distance_of_le h2,
      retreat_of_le (show (right - left) / 2 / 2 ≤ right by omega), hch, he] at hrun
  · obtain ⟨a4, k2, V, hrun', _, _, hp1, hp2, hV, _, _, hL, hR⟩ :=
      _QuickSortPartition_of_pivot comparator hswo m_Begin left right pv0 a h2 h3 hch
        (by omega) (by omega)
    rw [hrun] at hrun'
    cases hrun'
    exact ⟨hp1, hp2, V, hV, hL, fun i e hi1 hi2 he => hswo.asymm (hR i e hi1 hi2 he)⟩

theorem _QuickSortPartition_partitions_witness :
    0 ≤ 1 ∧ 1 ≤ 2 ∧ ∃ v, [1, 2, 3][1]? = some v ∧
      (∀ (i : Nat) (e : Nat), 0 ≤ i → i < 1 → [1, 2, 3][i]? = some e → greater e v = false) ∧
      (∀ (i : Nat) (e : Nat), 1 < i → i ≤ 2 → [1, 2, 3][i]? = some e → greater v e = false) :=
  _QuickSortPartition_partitions greater greater_strictWeakOrdering 0 0 2 [3, 1, 2] [1, 2, 3] 1
    (by decide) (by decide) (by decide) rfl

/-! # The merge step, the hybrid threshold, the passes of BubbleSort, the split of
MergeSort -/

/-- One turn of the interleaving loop with both buffers non-empty: the head of the right
buffer is written exactly when `comparator r l = false`, the head of the left buffer
otherwise, and the loop goes on without the head that was written. -/
theorem _MergeSubData_merge_step (comparator : α → α → Bool) (fuel : Nat) (l r : α)
    (ls rs : List α) (aux : Nat) (a : List α) :
    _MergeSubData.merge comparator (fuel + 1) (l :: ls) (r :: rs) aux a =
      if comparator r l = false then
        (assign a aux r).bind
          (fun a1 => _MergeSubData.merge comparator fuel (l :: ls) rs (aux + 1) a1)
      else
        (assign a aux l).bind
          (fun a1 => _MergeSubData.merge comparator fuel ls (r :: rs) (aux + 1) a1) := by
  cases hrl : comparator r l with
  | true =>
    cases ha : assign a aux l with
    | error e => simp [_MergeSubData.merge, hrl, ha, Except.bind]
    | ok a1 => simp [_MergeSubData.merge, hrl, ha, Except.bind]
  | false =>
    cases ha : assign a aux r with
    | error e => simp [_MergeSubData.merge, hrl, ha, Except.bind]
    | ok a1 => simp [_MergeSubData.merge, hrl, ha, Except.bind]

/-- Claim C21.  In the interleaving loop of `_MergeSubData`, with both buffers non-empty
(heads `l` and `r`) and `aux` pointing at a part of the storage with room for both
buffers: the turn writes the head of the right buffer exactly when
`comparator r l = false` and the head of the left buffer otherwise, the loop completes,
and that element is what position `aux` holds afterwards; in particular on equal-ranked
heads it is the head of the right buffer. -/
theorem merge_writes_right_head_unless_it_must_follow (comparator : α → α → Bool)
    (l r : α) (ls rs W rest : List α) (fuel : Nat)
    (hfuel : (l :: ls).length + (r :: rs).length ≤ fuel + 1)
    (hroom : (l :: ls).length + (r :: rs).length ≤ rest.length) :
    (_MergeSubData.merge comparator (fuel + 1) (l :: ls) (r :: rs) W.length (W ++ rest) =
      if comparator r l = false then
        (assign (W ++ rest) W.length r).bind
          (fun a1 => _MergeSubData.merge comparator fuel (l :: ls) rs (W.length + 1) a1)
      else
        (assign (W ++ rest) W.length l).bind
          (fun a1 => _MergeSubData.merge comparator fuel ls (r :: rs) (W.length + 1) a1)) ∧
    ∃ a' aux' ls' rs',
      _MergeSubData.merge comparator (fuel + 1) (l :: ls) (r :: rs) W.length (W ++ rest) =
        .ok (a', aux', ls', rs') ∧
      a'[W.length]? = some (if comparator r l = false then r else l) ∧
      (comparator r l = false → comparator l r = false → a'[W.length]? = some r) := by
  refine ⟨_MergeSubData_merge_step comparator fuel l r ls rs W.length (W ++ rest), ?_⟩
  cases rest with
  | nil => simp at hroom
  | cons q rest =>
    cases hrl : comparator r l with
    | true =>
      obtain ⟨out, ls', rs', hrun, _, _, _⟩ :=
        _MergeSubData_merge_spec comparator fuel ls (r :: rs) (W ++ [l]) rest
          (by simp at hfuel ⊢; omega) (by simp at hroom ⊢; omega)
      simp only [List.length_append, List.length_singleton] at hrun
      refine ⟨W ++ [l] ++ out ++ List.drop out.length rest, W.length + 1 + out.length, ls', rs',
        ?_, ?_, ?_⟩
      · simp only [_MergeSubData.merge, hrl, if_true, assign_length_append]
        rw [show W ++ l :: rest = (W ++ [l]) ++ rest by simp, hrun]
      · have : W ++ [l] ++ out ++ List.drop out.length rest =
            W ++ l :: (out ++ List.drop out.length rest) := by simp
        rw [this, getElem?_length_append]
        simp
      · intro h; cases h
    | false =>
      obtain ⟨out, ls', rs', hrun, _, _, _⟩ :=
        _MergeSubData_merge_spec comparator fuel (l :: ls) rs (W ++ [r]) rest
          (by simp at hfuel ⊢; omega) (by simp at hroom ⊢; omega)
      simp only [List.length_append, List.length_singleton] at hrun
      have hpos : (W ++ [r] ++ out ++ List.drop out.length rest)[W.length]? = some r := by
        have : W ++ [r] ++ out ++ List.drop out.length rest =
            W ++ r :: (out ++ List.drop out.length rest) := by simp
        rw [this, getElem?_length_append]
      refine ⟨W ++ [r] ++ out ++ List.drop out.length rest, W.length + 1 + out.length, ls', rs',
        ?_, ?_, ?_⟩
      · simp only [_MergeSubData.merge, hrl, Bool.false_eq_true, if_false, assign_length_append]
        rw [show W ++ r :: rest = (W ++ [r]) ++ rest by simp, hrun]
      · simpa using hpos
      · intro _ _; exact hpos

theorem merge_writes_right_head_unless_it_must_follow_witness :
    (_MergeSubData.merge greaterKey (1 + 1) ((1, 0) :: []) ((1, 1) :: []) ([] : List (Nat × Nat)).length
        ([] ++ [(1, 0), (1, 1)]) =
      if greaterKey (1, 1) (1, 0) = false then
        (assign ([] ++ [(1, 0), (1, 1)]) ([] : List (Nat × Nat)).length (1, 1)).bind
          (fun a1 => _MergeSubData.merge greaterKey 1 ((1, 0) :: []) []
            (([] : List (Nat × Nat)).length + 1) a1)
      else
        (assign ([] ++ [(1, 0), (1, 1)]) ([] : List (Nat × Nat)).length (1, 0)).bind
          (fun a1 => _MergeSubData.merge greaterKey 1 [] ((1, 1) :: [])
            (([] : List (Nat × Nat)).length + 1) a1)) ∧
    ∃ a' aux' ls' rs',
      _MergeSubData.merge greaterKey (1 + 1) ((1, 0) :: []) ((1, 1) :: [])
          ([] : List (Nat × Nat)).length ([] ++ [(1, 0), (1, 1)]) = .ok (a', aux', ls', rs') ∧
      a'[([] : List (Nat × Nat)).length]? =
        some (if greaterKey (1, 1) (1, 0) = false then (1, 1) else (1, 0)) ∧
      (greaterKey (1, 1) (1, 0) = false → greaterKey (1, 0) (1, 1) = false →
        a'[([] : List (Nat × Nat)).length]? = some (1, 1)) :=
  merge_writes_right_head_unless_it_must_follow greaterKey (1, 0) (1, 1) [] [] []
    [(1, 0), (1, 1)] 1 (by decide) (by decide)

/-- The threshold test of `_DefaultSortImp` compares `right - left` with 200: an inclusive
sub-range with `right - left ≤ 200`, i.e. of at most 201 elements, goes to
`InsertionSort`. -/
theorem _DefaultSortImp_small (comparator : α → α → Bool) (m_Begin m_End fuel left right : Nat)
    (a : List α) (h1 : m_Begin ≤ left) (h2 : left < right) (h3 : right - left ≤ 200) :
    _DefaultSortImp comparator m_Begin m_End (fuel + 1) left right a =
      InsertionSort comparator left (right + 1) a := by
  have e1 : distance m_Begin left = left - m_Begin := distance_of_le h1
  have e2 : distance m_Begin right = right - m_Begin := distance_of_le (by omega)
  have e3 : ¬ (right - m_Begin ≤ left - m_Begin) := by omega
  have e4 : right - m_Begin - (left - m_Begin) ≤ 200 := by omega
  simp [_DefaultSortImp, e1, e2, e3, e4]

/-- Claim C22, evaluated on the code.  The claim says that `_DefaultSortImp` hands an
inclusive sub-range to `InsertionSort` exactly when it has at most 200 elements, and that a
sub-range of 201 elements is partitioned.  The code tests `right - left <= 200`: on the
inclusive sub-range `[0, 200]` of the vector `[200, 199, ..., 0]`, which has 201 elements,
the call is the call `InsertionSort(left, right + 1)`, and it completes with an ordered
vector; the partition step is not entered. -/
theorem DefaultSortImp_201_elements_insertion_sorted :
    _DefaultSortImp greater 0 201 1 0 200 (List.range 201).reverse =
      InsertionSort greater 0 201 (List.range 201).reverse ∧
    ∃ r, _DefaultSortImp greater 0 201 1 0 200 (List.range 201).reverse = .ok r ∧
      Ordered greater r := by
  have e := _DefaultSortImp_small greater 0 201 0 0 200 (List.range 201).reverse
    (le_refl _) (by decide) (by decide)
  obtain ⟨r, hr, _, hord⟩ := InsertionSort_spec greater (List.range 201).reverse (by simp)
  have hlen : (List.range 201).reverse.length = 201 := by simp
  rw [hlen] at hr
  exact ⟨e, r, e.trans hr, hord greater_strictWeakOrdering⟩

/-- Claim C23.  For a strict weak ordering, a full pass of `BubbleSort` over the active
range `[0, e)` of a storage (`1 ≤ e ≤` its length) completes and leaves at position
`e - 1` an element `m` that no element of the active range has to follow; if the pass
swapped something the loop goes on with the active range `[0, e - 1)`, otherwise it
stops. -/
theorem BubbleSort_pass_places_last (comparator : α → α → Bool)
    (hswo : StrictWeakOrdering comparator) (a : List α) (e : Nat) (h1 : 1 ≤ e)
    (h2 : e ≤ a.length) :
    ∃ a1 s, BubbleSort.pass comparator e (a.length + 1) 0 1 a true = .ok (a1, s) ∧
      (∃ m, a1[e - 1]? = some m ∧
        ∀ (i : Nat) (x : α), i < e → a1[i]? = some x → comparator x m = false) ∧
      (∀ fuel, BubbleSort.loop comparator 0 (fuel + 1) e a =
        if s = true then .ok a1 else BubbleSort.loop comparator 0 fuel (e - 1) a1) := by
  obtain ⟨a1, s, hrun, hlen, _, _, _, _, _, hO⟩ :=
    BubbleSort_pass_spec comparator e (a.length + 1) 0 a true (by omega) h2 (by omega)
  obtain ⟨m, hm⟩ := exists_getElem? (show e - 1 < a1.length by omega)
  refine ⟨a1, s, hrun, ⟨m, hm, ?_⟩, ?_⟩
  · intro i x hi hx
    exact (hO hswo m hm).1 i x (Nat.zero_le _) hi hx
  · intro fuel
    have hrun' : BubbleSort.pass comparator e (a.length + 1) 0 (0 + 1) a true = .ok (a1, s) :=
      hrun
    cases s with
    | true => simp [BubbleSort.loop, hrun', retreat_one h1]
    | false => simp [BubbleSort.loop, hrun', retreat_one h1]

theorem BubbleSort_pass_places_last_witness :
    ∃ a1 s, BubbleSort.pass greater 3 (([5, 3, 4, 1] : List Nat).length + 1) 0 1 [5, 3, 4, 1]
        true = .ok (a1, s) ∧
      (∃ m, a1[3 - 1]? = some m ∧
        ∀ (i : Nat) (x : Nat), i < 3 → a1[i]? = some x → greater x m = false) ∧
      (∀ fuel, BubbleSort.loop greater 0 (fuel + 1) 3 [5, 3, 4, 1] =
        if s = true then .ok a1 else BubbleSort.loop greater 0 fuel (3 - 1) a1) :=
  BubbleSort_pass_places_last greater greater_strictWeakOrdering [5, 3, 4, 1] 3 (by decide)
    (by decide)

/-- Claim C24.  For a call of `_MergeSortImp` whose positions have the indices
`l = left - m_Begin < r = right - m_Begin`, the midpoint `m = (l + r - 1) / 2` satisfies
`l ≤ m < r`, and the call is the two recursive calls on `[l, m]` and `[m + 1, r]` followed
by the merge; on a single element the call returns at once; and `MergeSort` completes on
every non-empty vector, whatever the comparator. -/
theorem MergeSortImp_splits_and_terminates (comparator : α → α → Bool)
    (m_Begin left right fuel : Nat) (a : List α) (h1 : m_Begin ≤ left) (h2 : left < right) :
    left - m_Begin ≤ (left - m_Begin + (right - m_Begin) - 1) / 2 ∧
    (left - m_Begin + (right - m_Begin) - 1) / 2 < right - m_Begin ∧
    _MergeSortImp comparator m_Begin (fuel + 1) left right a =
      (_MergeSortImp comparator m_Begin fuel left
        (m_Begin + (left - m_Begin + (right - m_Begin) - 1) / 2) a).bind (fun a1 =>
      (_MergeSortImp comparator m_Begin fuel
        (m_Begin + (left - m_Begin + (right - m_Begin) - 1) / 2 + 1) right a1).bind (fun a2 =>
      _MergeSubData comparator left (m_Begin + (left - m_Begin + (right - m_Begin) - 1) / 2)
        right a2)) ∧
    _MergeSortImp comparator m_Begin (fuel + 1) left left a = .ok a ∧
    (∀ v : List α, v ≠ [] → ∃ r, sortVector comparator .MergeSort v = .ok r) := by
  have e1 : distance m_Begin left = left - m_Begin := distance_of_le h1
  have e2 : distance m_Begin right = right - m_Begin := distance_of_le (by omega)
  have e3 : ¬ (right - m_Begin ≤ left - m_Begin) := by omega
  refine ⟨by omega, by omega, ?_, ?_, ?_⟩
  · simp only [_MergeSortImp, e1, e2, ge_iff_le, e3, if_false]
    cases h : _MergeSortImp comparator m_Begin fuel left
        (m_Begin + (left - m_Begin + (right - m_Begin) - 1) / 2) a with
    | error err => simp [Except.bind]
    | ok a1 =>
      cases h' : _MergeSortImp comparator m_Begin fuel
          (m_Begin + (left - m_Begin + (right - m_Begin) - 1) / 2 + 1) right a1 with
      | error err => simp [Except.bind, h']
      | ok a2 => simp [Except.bind, h']
  · simp [_MergeSortImp]
  · intro v hv
    obtain ⟨r, hr, _, _⟩ := MergeSort_spec comparator v hv
    exact ⟨r, hr⟩

theorem MergeSortImp_splits_and_terminates_witness :
    2 - 0 ≤ (2 - 0 + (5 - 0) - 1) / 2 ∧
    (2 - 0 + (5 - 0) - 1) / 2 < 5 - 0 ∧
    _MergeSortImp greater 0 (3 + 1) 2 5 [0, 1, 9, 7, 8, 6] =
      (_MergeSortImp greater 0 3 2 (0 + (2 - 0 + (5 - 0) - 1) / 2) [0, 1, 9, 7, 8, 6]).bind
        (fun a1 =>
      (_MergeSortImp greater 0 3 (0 + (2 - 0 + (5 - 0) - 1) / 2 + 1) 5 a1).bind (fun a2 =>
      _MergeSubData greater 2 (0 + (2 - 0 + (5 - 0) - 1) / 2) 5 a2)) ∧
    _MergeSortImp greater 0 (3 + 1) 2 2 [0, 1, 9, 7, 8, 6] = .ok [0, 1, 9, 7, 8, 6] ∧
    (∀ v : List Nat, v ≠ [] → ∃ r, sortVector greater .MergeSort v = .ok r) :=
  MergeSortImp_splits_and_terminates greater 0 2 5 3 [0, 1, 9, 7, 8, 6] (by decide) (by decide)

/-! # The partition step at the front of the range; the positions QuickSort reads -/

/-- A permutation of the storage that leaves every position outside `[left, right]` as it
was permutes the part `[left, right]`. -/
theorem perm_segment_of_frame {a a' : List α} (left right : Nat) (hperm : List.Perm a' a)
    (hF : ∀ (i : Nat), i < left ∨ right < i → a'[i]? = a[i]?) :
    List.Perm ((a'.drop left).take (right + 1 - left)) ((a.drop left).take (right + 1 - left)) := by
  have split : ∀ l : List α, l = l.take left ++
      ((l.drop left).take (right + 1 - left) ++ (l.drop left).drop (right + 1 - left)) := by
    intro l
    rw [List.take_append_drop, List.take_append_drop]
  have hT : a'.take left = a.take left := by
    apply List.ext_getElem?
    intro i
    rw [List.getElem?_take, List.getElem?_take]
    by_cases hi : i < left
    · simp [hi, hF i (Or.inl hi)]
    · simp [hi]
  have hD : (a'.drop left).drop (right + 1 - left) = (a.drop left).drop (right + 1 - left) := by
    apply List.ext_getElem?
    intro i
    simp only [List.getElem?_drop]
    by_cases hlr : left ≤ right + 1
    · exact hF _ (Or.inr (by omega))
    · exact hF _ (Or.inr (by omega))
  have h := hperm
  rw [split a', split a, hT, hD] at h
  exact (List.perm_append_right_iff _).mp ((List.perm_append_left_iff _).mp h)

/-- Claim C25.  When `_QuickSortPartition` is called with `left` the first position of
the range (`m_Begin = left`) and `right` a valid inclusive position, `left ≤ right`, under
a strict weak ordering, it returns a position `p` in `[left, right]` such that, with `v`
the element at `p` after the call, every element at a position in `[left, p)` has
`comparator(element, v) = false` and every element at a position in `(p, right]` has
`comparator(element, v) = true`; the elements of `[left, right]` are a permutation of
their former contents and the positions outside `[left, right]` are left as they were. -/
theorem _QuickSortPartition_at_front (comparator : α → α → Bool)
    (hswo : StrictWeakOrdering comparator) (left right : Nat) (a : List α)
    (h2 : left ≤ right) (h3 : right < a.length) :
    ∃ a' p v, _QuickSortPartition comparator left left right a = .ok (a', p) ∧
      left ≤ p ∧ p ≤ right ∧ a'[p]? = some v ∧
      (∀ (i : Nat) (e : α), left ≤ i → i < p → a'[i]? = some e → comparator e v = false) ∧
      (∀ (i : Nat) (e : α), p < i → i ≤ right → a'[i]? = some e → comparator e v = true) ∧
      List.Perm ((a'.drop left).take (right + 1 - left))
        ((a.drop left).take (right + 1 - left)) ∧
      (∀ (i : Nat), i < left ∨ right < i → a'[i]? = a[i]?) := by
  obtain ⟨pv0, hch, hcases⟩ := _QuickSortPartition_choose_spec comparator a
    (left + (right - left) / 2 / 2) (left + (right - left) / 2)
    (right - (right - left) / 2 / 2) (by omega) (by omega) (by omega)
  obtain ⟨a', p, V, hrun, _, hperm, hp1, hp2, hV, _, hF, hL, hR⟩ :=
    _QuickSortPartition_of_pivot comparator hswo left left right pv0 a h2 h3 hch
      (by omega) (by omega)
  exact ⟨a', p, V, hrun, hp1, hp2, hV, hL, hR, perm_segment_of_frame left right hperm hF, hF⟩

theorem _QuickSortPartition_at_front_witness :
    ∃ a' p v, _QuickSortPartition greater 1 1 4 [0, 7, 3, 9, 5, 1] = .ok (a', p) ∧
      1 ≤ p ∧ p ≤ 4 ∧ a'[p]? = some v ∧
      (∀ (i : Nat) (e : Nat), 1 ≤ i → i < p → a'[i]? = some e → greater e v = false) ∧
      (∀ (i : Nat) (e : Nat), p < i → i ≤ 4 → a'[i]? = some e → greater e v = true) ∧
      List.Perm ((a'.drop 1).take (4 + 1 - 1))
        (([0, 7, 3, 9, 5, 1].drop 1).take (4 + 1 - 1)) ∧
      (∀ (i : Nat), i < 1 ∨ 4 < i → a'[i]? = [0, 7, 3, 9, 5, 1][i]?) :=
  _QuickSortPartition_at_front greater greater_strictWeakOrdering 1 4 [0, 7, 3, 9, 5, 1]
    (by decide) (by decide)

/-- Claim C26, evaluated on the code.  The claim says that `QuickSort` touches only
positions of `[begin, end)`.  `QuickSort` hands `end` to `_QuickSortImp`, where it is the
inclusive `right`.  On the vector `[2, 1]` the right-quarter candidate of the
median-of-three selection is position 2, the past-the-end position, and reading it is
where the call leaves the vector.  On `[3, 1, 2, 4]` the three candidates (positions 1, 2,
3) are inside, the first scan completes, and the right-to-left scan starts by reading
position 4, the past-the-end position. -/
theorem QuickSort_dereferences_past_the_end :
    sortVector greater .QuickSort [2, 1] = .error (.outOfRange 2) ∧
    _QuickSortPartition.choose greater [2, 1] 0 1 2 = .error (.outOfRange 2) ∧
    sortVector greater .QuickSort [3, 1, 2, 4] = .error (.outOfRange 4) ∧
    _QuickSortPartition.choose greater [3, 1, 2, 4] 1 2 3 = .ok 2 ∧
    _QuickSortPartition.scanLeft greater 2 5 0 0 [3, 1, 2, 4] = .ok ([1, 3, 2, 4], 1) ∧
    iter_swap [1, 3, 2, 4] 1 2 = .ok [1, 2, 3, 4] ∧
    _QuickSortPartition.scanRight greater 1 5 4 4 [1, 2, 3, 4] = .error (.outOfRange 4) :=
  ⟨rfl, rfl, rfl, rfl, rfl, rfl, rfl⟩

end SortHpp
